import Mathlib

/-
Verification of the deadlock management tool (OS_PBL repository).

The repository ships the browser front end (src/script.js); the backend
engine it drives (entity store, allocation graph, cycle detector, recovery
manager) is described in spec.md but its code is not part of src/.  The
engine definitions below are therefore modelled from the spec (sections 3,
4 and 6), while the front-end definitions are shallow embeddings of the
functions in src/script.js.
-/

/-- Modelled from the spec: process priority, a small ordered enumeration
used as the victim-selection tie-break. -/
inductive Priority where
  | low
  | medium
  | high
deriving DecidableEq, Repr

/-- Modelled from the spec: numeric rank of a priority, used to order
victim candidates during recovery. -/
def prioRank : Priority → Nat
  | Priority.low => 0
  | Priority.medium => 1
  | Priority.high => 2

/-- Modelled from the spec: resource status, available or allocated. -/
inductive RStatus where
  | available
  | allocated
deriving DecidableEq, Repr

/-- Modelled from the spec: a process of the entity store, with its unique
id, priority, the set of resource ids it holds and the set of resource ids
it is blocked requesting. -/
structure Process where
  id : String
  priority : Priority
  held : List String
  waitingFor : List String
deriving DecidableEq, Repr

/-- Modelled from the spec: a resource of the entity store, with unit
capacity, an optional holder and an ordered wait queue. -/
structure Resource where
  id : String
  rtype : String
  status : RStatus
  heldBy : Option String
  waitQueue : List String
deriving DecidableEq, Repr

/-- Modelled from the spec: one entry of the append-only activity log. -/
structure LogEntry where
  severity : String
  message : String
deriving DecidableEq, Repr

/-- Modelled from the spec: the entity store owning processes, resources,
the activity log, the system status string and the two counters shown by
the status endpoint. -/
structure EngineState where
  processes : List Process
  resources : List Resource
  log : List LogEntry
  sysStatus : String
  deadlocksDetected : Nat
  deadlocksPrevented : Nat
deriving DecidableEq, Repr

/-- Modelled from the spec: a node of the derived allocation graph, either
a process node or a resource node. -/
inductive GNode where
  | P : String → GNode
  | R : String → GNode
deriving DecidableEq, Repr

/-- Modelled from the spec: the kind tag of a derived graph edge. -/
inductive EdgeKind where
  | allocation
  | request
deriving DecidableEq, Repr

/-- Modelled from the spec: a derived graph edge as an explicit tagged
variant with kind, source and destination. -/
structure GEdge where
  kind : EdgeKind
  src : GNode
  dst : GNode
deriving DecidableEq, Repr

/-- Modelled from the spec: result of a requestResource call. -/
inductive ReqResult where
  | allocated
  | waiting (holder : String)
  | denied (cycleDescription : String)
  | notFound
  | alreadyHeld
  | alreadyWaiting
deriving DecidableEq, Repr

/-- Modelled from the spec: result of an add operation. -/
inductive AddResult where
  | success
  | duplicateId
deriving DecidableEq, Repr

/-- Modelled from the spec: result of a recover call. -/
inductive RecoverResult where
  | ok (victim : String) (released : List String)
  | noDeadlock
  | invalidState
deriving DecidableEq, Repr

/-- Modelled from the spec: the node list of the derived graph, all process
ids then all resource ids. -/
def gnodesCore (procs : List Process) (ress : List Resource) : List GNode :=
  procs.map (fun p => GNode.P p.id) ++ ress.map (fun r => GNode.R r.id)

/-- Modelled from the spec: successors of a node in the combined
allocation-plus-wait graph.  A process node points to every resource it
waits for; a resource node points to its holder. -/
def succsCore (procs : List Process) (ress : List Resource) : GNode → List GNode
  | GNode.P pid =>
      match procs.find? (fun p => p.id == pid) with
      | some p => p.waitingFor.map GNode.R
      | none => []
  | GNode.R rid =>
      match ress.find? (fun r => r.id == rid) with
      | some r =>
          match r.heldBy with
          | some h => [GNode.P h]
          | none => []
      | none => []

/-- Bounded reachability: there is a path of length between 1 and the fuel
from the first node to the second, following the successor function. -/
def reachIn (succ : GNode → List GNode) : Nat → GNode → GNode → Bool
  | 0, _, _ => false
  | n + 1, a, b =>
      decide (b ∈ succ a) || (succ a).any (fun c => reachIn succ n c b)

/-- Modelled from the spec: a cycle exists in the combined graph, expressed
as some listed node reaching itself. -/
def hasCycleCore (procs : List Process) (ress : List Resource) : Bool :=
  (gnodesCore procs ress).any
    (fun v => reachIn (succsCore procs ress) (gnodesCore procs ress).length v v)

/-- Modelled from the spec: depth-first search with an explicit recursion
stack; a back edge to a node on the stack identifies a cycle and the
ordered cycle is returned. -/
def dfsAux (succ : GNode → List GNode) : Nat → List GNode → GNode → Option (List GNode)
  | 0, _, _ => none
  | fuel + 1, stack, v =>
      if v ∈ stack then
        some ((stack.dropWhile (fun x => decide (x ≠ v))) ++ [v])
      else
        (succ v).findSome? (fun c => dfsAux succ fuel (stack ++ [v]) c)

/-- Modelled from the spec: the cycle detector, trying a depth-first search
from every node in insertion order and returning the first cycle found. -/
def findCycleCore (procs : List Process) (ress : List Resource) : Option (List GNode) :=
  (gnodesCore procs ress).findSome?
    (fun v => dfsAux (succsCore procs ress) ((gnodesCore procs ress).length + 1) [] v)

/-- Modelled from the spec: human-readable description of a cycle. -/
def describeCycle (c : List GNode) : String :=
  String.intercalate " -> " (c.map (fun n => match n with | GNode.P p => p | GNode.R r => r))

/-- Node list of the live store. -/
def gnodes (s : EngineState) : List GNode :=
  gnodesCore s.processes s.resources

/-- Successor function of the live store. -/
def succs (s : EngineState) : GNode → List GNode :=
  succsCore s.processes s.resources

/-- Cycle detector run over the live store. -/
def findCycle (s : EngineState) : Option (List GNode) :=
  findCycleCore s.processes s.resources

/-- Cycle existence over the live store. -/
def hasCycleB (s : EngineState) : Bool :=
  hasCycleCore s.processes s.resources

/-- Lookup of a process by id. -/
def findProcess (s : EngineState) (pid : String) : Option Process :=
  s.processes.find? (fun p => p.id == pid)

/-- Lookup of a resource by id. -/
def findResource (s : EngineState) (rid : String) : Option Resource :=
  s.resources.find? (fun r => r.id == rid)

/-- Modelled from the spec: append one entry to the activity log. -/
def appendLog (s : EngineState) (sev msg : String) : EngineState :=
  { s with log := s.log ++ [⟨sev, msg⟩] }

/-- Modelled from the spec: the edge view of the derived graph, all
allocation edges followed by all wait edges. -/
def edgesOf (s : EngineState) : List GEdge :=
  (s.resources.filterMap (fun r =>
    match r.heldBy with
    | some h => some ⟨EdgeKind.allocation, GNode.R r.id, GNode.P h⟩
    | none => none))
  ++ (s.processes.flatMap (fun p =>
        p.waitingFor.map (fun x => ⟨EdgeKind.request, GNode.P p.id, GNode.R x⟩)))

/-- Serialization of an edge kind as sent to the front end. -/
def kindStr : EdgeKind → String
  | EdgeKind.allocation => "allocation"
  | EdgeKind.request => "request"

/-- Modelled from the spec: addProcess fails with DuplicateId when the id
exists, otherwise creates the process with empty held and waitingFor. -/
def addProcess (s : EngineState) (pid : String) (prio : Priority) : AddResult × EngineState :=
  if (findProcess s pid).isSome then
    (AddResult.duplicateId, s)
  else
    (AddResult.success,
      appendLog { s with processes := s.processes ++ [⟨pid, prio, [], []⟩] }
        "info" ("Process " ++ pid ++ " added"))

/-- Modelled from the spec: addResource fails with DuplicateId when the id
exists, otherwise creates the resource available with empty wait queue. -/
def addResource (s : EngineState) (rid : String) (ty : String) : AddResult × EngineState :=
  if (findResource s rid).isSome then
    (AddResult.duplicateId, s)
  else
    (AddResult.success,
      appendLog { s with resources := s.resources ++ [⟨rid, ty, RStatus.available, none, []⟩] }
        "info" ("Resource " ++ rid ++ " added"))

/-- Modelled from the spec: the requesting process's update when a wait
edge is committed. -/
def waitProc (pid rid : String) (q : Process) : Process :=
  if q.id == pid then { q with waitingFor := q.waitingFor ++ [rid] } else q

/-- Modelled from the spec: the requested resource's update when a wait
edge is committed. -/
def waitRes (pid rid : String) (x : Resource) : Resource :=
  if x.id == rid then { x with waitQueue := x.waitQueue ++ [pid] } else x

/-- Modelled from the spec: tentatively add the wait edge from a process to
a resource, appending the process to the wait queue and the resource to the
waitingFor set. -/
def addWaitEdge (s : EngineState) (pid rid : String) : EngineState :=
  { s with
    processes := s.processes.map (waitProc pid rid),
    resources := s.resources.map (waitRes pid rid) }

/-- Modelled from the spec: the granted process's update. -/
def grantProc (pid rid : String) (q : Process) : Process :=
  if q.id == pid then { q with held := q.held ++ [rid] } else q

/-- Modelled from the spec: the granted resource's update. -/
def grantRes (pid rid : String) (x : Resource) : Resource :=
  if x.id == rid then { x with status := RStatus.allocated, heldBy := some pid } else x

/-- Modelled from the spec: grant an available resource, setting the holder
and status and adding the resource to the process's held set. -/
def grantTo (s : EngineState) (pid rid : String) : EngineState :=
  { s with
    processes := s.processes.map (grantProc pid rid),
    resources := s.resources.map (grantRes pid rid) }

/-- Modelled from the spec: the request-grant protocol.  Unknown ids fail
with NotFound, redundant requests fail with AlreadyHeld or AlreadyWaiting,
an available resource is granted immediately, and a request on a held
resource is simulated through the cycle detector: committed as a wait edge
when no cycle results, denied with the would-be cycle otherwise. -/
def requestResource (s : EngineState) (pid rid : String) : ReqResult × EngineState :=
  match findProcess s pid, findResource s rid with
  | some p, some r =>
      if rid ∈ p.held then
        (ReqResult.alreadyHeld, appendLog s "warning" ("Process " ++ pid ++ " already holds " ++ rid))
      else if rid ∈ p.waitingFor then
        (ReqResult.alreadyWaiting, appendLog s "warning" ("Process " ++ pid ++ " already waiting for " ++ rid))
      else
        match r.heldBy with
        | none =>
            (ReqResult.allocated,
              appendLog (grantTo s pid rid) "success" ("Resource " ++ rid ++ " allocated to " ++ pid))
        | some holder =>
            let t := addWaitEdge s pid rid
            match findCycleCore t.processes t.resources with
            | none =>
                (ReqResult.waiting holder,
                  appendLog t "warning" ("Process " ++ pid ++ " waiting for " ++ rid))
            | some c =>
                (ReqResult.denied (describeCycle c),
                  { appendLog s "error" ("Request denied: " ++ describeCycle c) with
                      deadlocksPrevented := s.deadlocksPrevented + 1 })
  | _, _ => (ReqResult.notFound, s)

/-- Modelled from the spec: the releasing holder's update, removing the
released resource from its held set. -/
def relProc (pid rid : String) (q : Process) : Process :=
  if q.id == pid then { q with held := q.held.filter (fun x => x != rid) } else q

/-- Modelled from the spec: the process update of a release that grants the
popped head waiter, adding the resource to its held set and removing it
from its waitingFor set. -/
def relGrantProc (pid rid h : String) (q : Process) : Process :=
  let q1 := relProc pid rid q
  if q1.id == h then
    { q1 with held := q1.held ++ [rid], waitingFor := q1.waitingFor.filter (fun x => x != rid) }
  else q1

/-- Modelled from the spec: the released resource's update when nobody
waits: it becomes available with no holder. -/
def relResNil (rid : String) (x : Resource) : Resource :=
  if x.id == rid then { x with status := RStatus.available, heldBy := none } else x

/-- Modelled from the spec: the released resource's update when the head
waiter is granted: the holder changes and the queue is popped. -/
def relResCons (rid h : String) (t : List String) (x : Resource) : Resource :=
  if x.id == rid then { x with heldBy := some h, waitQueue := t } else x

/-- Modelled from the spec: releaseResource clears the holder, removes the
resource from the holder's held set and, when the wait queue is non-empty,
pops the head process and grants it the resource; only the current holder
can release. -/
def releaseResource (s : EngineState) (pid rid : String) : EngineState :=
  match findResource s rid with
  | none => s
  | some r =>
      if r.heldBy == some pid then
        match r.waitQueue with
        | [] =>
            { s with
              processes := s.processes.map (relProc pid rid),
              resources := s.resources.map (relResNil rid) }
        | h :: t =>
            { s with
              processes := s.processes.map (relGrantProc pid rid h),
              resources := s.resources.map (relResCons rid h t) }
      else s

/-- Modelled from the spec: detectDeadlock runs the cycle detector over the
live store; when a cycle is found it marks the system status DEADLOCK and
logs the cycle, and it never recovers. -/
def detectDeadlock (s : EngineState) : (Bool × List GNode) × EngineState :=
  match findCycleCore s.processes s.resources with
  | some c =>
      let s1 := appendLog s "error" ("Deadlock detected: " ++ describeCycle c)
      ((true, c),
        { s1 with sysStatus := "DEADLOCK", deadlocksDetected := s.deadlocksDetected + 1 })
  | none => ((false, []), { s with sysStatus := "SAFE" })

/-- Modelled from the spec: the empty initial state of the store. -/
def initState : EngineState :=
  ⟨[], [], [], "SAFE", 0, 0⟩

/-- Modelled from the spec: removeAll (reset) returns the store to its
empty initial state. -/
def removeAll (_ : EngineState) : EngineState :=
  initState

/-- Lexicographic order on character lists by character code, written
structurally so that concrete instances evaluate. -/
def charListLt : List Char → List Char → Bool
  | _, [] => false
  | [], _ :: _ => true
  | c :: cs, d :: ds =>
      if c.toNat < d.toNat then true
      else if d.toNat < c.toNat then false
      else charListLt cs ds

/-- Lexicographic order on strings. -/
def strLt (a b : String) : Bool :=
  charListLt a.data b.data

/-- Modelled from the spec: preference between two victim candidates,
lowest priority first with lexicographically smallest id as the
tie-break. -/
def pickBetter (acc q : Process) : Process :=
  if prioRank q.priority < prioRank acc.priority
      || (prioRank q.priority == prioRank acc.priority && strLt q.id acc.id)
  then q else acc

/-- Modelled from the spec: deterministic victim selection over the cycle's
processes. -/
def pickVictim (l : List Process) : Option Process :=
  match l with
  | [] => none
  | h :: t => some (t.foldl pickBetter h)

/-- Modelled from the spec: remove a terminated process from the store and
from every wait queue. -/
def removeVictim (s : EngineState) (vid : String) : EngineState :=
  { s with
    processes := s.processes.filter (fun q => q.id != vid),
    resources := s.resources.map (fun r =>
      { r with waitQueue := r.waitQueue.filter (fun x => x != vid) }) }

/-- Modelled from the spec: recovery runs the cycle detector, fails with
NoDeadlock when no cycle is found, otherwise terminates the selected victim
on the cycle, releasing every resource it holds through the release
cascade, and returns the victim id and the released resource ids. -/
def recoverDeadlock (s : EngineState) : RecoverResult × EngineState :=
  match findCycleCore s.processes s.resources with
  | none => (RecoverResult.noDeadlock, s)
  | some c =>
      let victims := c.filterMap (fun n =>
        match n with
        | GNode.P pid => findProcess s pid
        | GNode.R _ => none)
      match pickVictim victims with
      | none => (RecoverResult.invalidState, s)
      | some pv =>
          let rel := pv.held
          let s1 := rel.foldl (fun st x => releaseResource st pv.id x) s
          let s2 := removeVictim s1 pv.id
          (RecoverResult.ok pv.id rel,
            appendLog s2 "error" ("Process " ++ pv.id ++ " terminated"))

/-- The two-way allocation consistency invariant of the spec: a resource is
allocated exactly when it has a holder, the holder exists and lists the
resource in its held set, and every held entry points back to a resource
held by that process. -/
def AllocConsistent (s : EngineState) : Prop :=
  (∀ r ∈ s.resources,
    (r.status = RStatus.allocated ↔ r.heldBy ≠ none) ∧
    (∀ h, r.heldBy = some h → ∃ p ∈ s.processes, p.id = h ∧ r.id ∈ p.held)) ∧
  (∀ p ∈ s.processes, ∀ x ∈ p.held,
    ∃ r ∈ s.resources, r.id = x ∧ r.heldBy = some p.id)

/-- The well-formedness bundle of the spec's data-model invariants, assumed
of every store state the engine operates on. -/
structure WF (s : EngineState) : Prop where
  procNodup : (s.processes.map (fun p => p.id)).Nodup
  resNodup : (s.resources.map (fun r => r.id)).Nodup
  statusIff : ∀ r ∈ s.resources, (r.status = RStatus.allocated ↔ r.heldBy ≠ none)
  holderHeld : ∀ r ∈ s.resources, ∀ h, r.heldBy = some h →
    ∃ p ∈ s.processes, p.id = h ∧ r.id ∈ p.held
  heldBack : ∀ p ∈ s.processes, ∀ x ∈ p.held,
    ∃ r ∈ s.resources, r.id = x ∧ r.heldBy = some p.id
  waitFwd : ∀ p ∈ s.processes, ∀ x ∈ p.waitingFor,
    ∃ r ∈ s.resources, r.id = x ∧ p.id ∈ r.waitQueue
  waitBack : ∀ r ∈ s.resources, ∀ q ∈ r.waitQueue,
    ∃ p ∈ s.processes, p.id = q ∧ r.id ∈ p.waitingFor
  holderNotWait : ∀ r ∈ s.resources, ∀ h, r.heldBy = some h → h ∉ r.waitQueue
  heldWaitDisj : ∀ p ∈ s.processes, ∀ x ∈ p.held, x ∉ p.waitingFor
  availNoQueue : ∀ r ∈ s.resources, r.heldBy = none → r.waitQueue = []
  heldNodup : ∀ p ∈ s.processes, p.held.Nodup
  waitForNodup : ∀ p ∈ s.processes, p.waitingFor.Nodup
  queueNodup : ∀ r ∈ s.resources, r.waitQueue.Nodup

/-- Whether a request result is one of the four outcome shapes listed in
the external interface summary of the spec. -/
def isSpecOutcome : ReqResult → Bool
  | ReqResult.allocated => true
  | ReqResult.waiting _ => true
  | ReqResult.denied _ => true
  | ReqResult.notFound => true
  | ReqResult.alreadyHeld => false
  | ReqResult.alreadyWaiting => false

/-- Shallow embedding of the trim applied to the text inputs in
src/script.js: removal of leading and trailing whitespace, written
structurally so that concrete instances evaluate. -/
def strTrim (s : String) : String :=
  ⟨((s.data.dropWhile Char.isWhitespace).reverse.dropWhile Char.isWhitespace).reverse⟩

/-- State of the browser page as read and written by src/script.js: the
in-flight flag, the auto-refresh pause flag, the submit button and the two
text inputs. -/
structure UIState where
  isProcessing : Bool
  pauseAutoRefresh : Bool
  buttonText : String
  buttonDisabled : Bool
  processInput : String
  resourceInput : String
deriving DecidableEq, Repr

/-- Outcome of the backend fetch performed by the front end: an ok response
with success true, an ok or error response without success, or a thrown
network error. -/
inductive FetchOutcome where
  | okSuccess
  | okFailure
  | threw
deriving DecidableEq, Repr

/-- Result of one front-end operation: the final page state, whether a
request was sent to the backend, and whether the input guard alerted. -/
structure FEResult where
  state : UIState
  requestSent : Bool
  alerted : Bool
deriving DecidableEq, Repr

/-- Shallow embedding of addProcess from src/script.js: the isProcessing
re-entrancy guard, the trimmed-empty-id guard with its alert, the loading
state on the button, the fetch, and the finally block restoring the button
and clearing both flags. -/
def addProcessUI (s : UIState) (out : FetchOutcome) : FEResult :=
  if s.isProcessing then ⟨s, false, false⟩
  else
    let processId := strTrim s.processInput
    if processId == "" then ⟨s, false, true⟩
    else
      let s1 := { s with isProcessing := true, pauseAutoRefresh := true }
      let originalText := s1.buttonText
      let s2 := { s1 with buttonText := "Adding...", buttonDisabled := true }
      let s3 :=
        match out with
        | FetchOutcome.okSuccess => { s2 with processInput := "" }
        | FetchOutcome.okFailure => s2
        | FetchOutcome.threw => s2
      ⟨{ s3 with buttonText := originalText, buttonDisabled := false,
                 isProcessing := false, pauseAutoRefresh := false },
        true, false⟩

/-- Shallow embedding of addResource from src/script.js: the trimmed-empty
id guard with its alert, the pauseAutoRefresh flag around the fetch, and
the finally block clearing it; every completed branch alerts. -/
def addResourceUI (s : UIState) (out : FetchOutcome) : FEResult :=
  let resourceId := strTrim s.resourceInput
  if resourceId == "" then ⟨s, false, true⟩
  else
    let s1 := { s with pauseAutoRefresh := true }
    let s2 :=
      match out with
      | FetchOutcome.okSuccess => { s1 with resourceInput := "" }
      | FetchOutcome.okFailure => s1
      | FetchOutcome.threw => s1
    ⟨{ s2 with pauseAutoRefresh := false }, true, true⟩

/-- Drawing style the canvas renderer applies to one edge. -/
structure EdgeStyle where
  strokeStyle : String
  lineWidth : Nat
  lineDash : List Nat
deriving DecidableEq, Repr

/-- Shallow embedding of the edge-style branch of updateGraph in
src/script.js: an edge whose type is the string allocation is drawn solid
green, every other edge is drawn dashed red as a request edge. -/
def renderEdgeStyle (t : String) : EdgeStyle :=
  if t == "allocation" then ⟨"#10b981", 3, []⟩ else ⟨"#ef4444", 3, [8, 4]⟩

/-- Witness state: two processes each holding one resource, the first also
queued on the second resource. -/
def wsWait : EngineState :=
  { processes := [⟨"P1", Priority.medium, ["R1"], ["R2"]⟩, ⟨"P2", Priority.medium, ["R2"], []⟩],
    resources := [⟨"R1", "file", RStatus.allocated, some "P1", []⟩,
                  ⟨"R2", "file", RStatus.allocated, some "P2", ["P1"]⟩],
    log := [], sysStatus := "SAFE", deadlocksDetected := 0, deadlocksPrevented := 0 }

/-- Witness state: a committed circular wait between two processes. -/
def wsDead : EngineState :=
  { processes := [⟨"P1", Priority.medium, ["R1"], ["R2"]⟩, ⟨"P2", Priority.medium, ["R2"], ["R1"]⟩],
    resources := [⟨"R1", "file", RStatus.allocated, some "P1", ["P2"]⟩,
                  ⟨"R2", "file", RStatus.allocated, some "P2", ["P1"]⟩],
    log := [], sysStatus := "SAFE", deadlocksDetected := 0, deadlocksPrevented := 0 }

/-- Witness state: one process holding one resource, one free resource. -/
def wsBasic : EngineState :=
  { processes := [⟨"P1", Priority.low, ["R1"], []⟩, ⟨"P2", Priority.high, [], []⟩],
    resources := [⟨"R1", "file", RStatus.allocated, some "P1", []⟩,
                  ⟨"R2", "printer", RStatus.available, none, []⟩],
    log := [], sysStatus := "SAFE", deadlocksDetected := 0, deadlocksPrevented := 0 }

/-- Witness page state: idle page with a blank-after-trim process id and a
blank resource id. -/
def wsPage : UIState :=
  ⟨false, false, "Add Process", false, "  ", ""⟩

/-- Witness page state: idle page with valid inputs. -/
def wsPageOk : UIState :=
  ⟨false, false, "Add Process", false, "P9", "R9"⟩

/-- Witness page state: a page with an operation already in flight. -/
def wsPageBusy : UIState :=
  ⟨true, true, "Adding...", true, "P9", "R9"⟩

/-- Reachability is monotone in the fuel bound. -/
theorem reachIn_mono (succ : GNode → List GNode) :
    ∀ (n m : Nat) (a b : GNode), m ≤ n → reachIn succ m a b = true → reachIn succ n a b = true := by
  intro n
  induction n with
  | zero =>
    intro m a b hle h
    have hm : m = 0 := Nat.le_zero.mp hle
    subst hm
    simp [reachIn] at h
  | succ n ih =>
    intro m a b hle h
    match m with
    | 0 => simp [reachIn] at h
    | m' + 1 =>
      simp only [reachIn, Bool.or_eq_true, decide_eq_true_eq, List.any_eq_true] at h ⊢
      rcases h with h | ⟨c, hc, hr⟩
      · exact Or.inl h
      · exact Or.inr ⟨c, hc, ih m' c b (Nat.succ_le_succ_iff.mp hle) hr⟩

/-- One reachability step through a chosen successor. -/
theorem reachIn_step (succ : GNode → List GNode) (n : Nat) (a b c : GNode)
    (hc : c ∈ succ a) (h : reachIn succ n c b = true) : reachIn succ (n + 1) a b = true := by
  simp only [reachIn, Bool.or_eq_true, decide_eq_true_eq, List.any_eq_true]
  exact Or.inr ⟨c, hc, h⟩

/-- A chain of edges from a node to a node witnesses bounded reachability. -/
theorem chain_to_reachIn (succ : GNode → List GNode) :
    ∀ (l : List GNode) (a b : GNode),
      List.Chain' (fun x y => y ∈ succ x) (a :: l ++ [b]) →
      reachIn succ (l.length + 1) a b = true := by
  intro l
  induction l with
  | nil =>
    intro a b h
    simp only [List.cons_append, List.nil_append, List.chain'_cons] at h
    simp [reachIn, h.1]
  | cons c l' ih =>
    intro a b h
    simp only [List.cons_append] at h
    rw [List.chain'_cons] at h
    obtain ⟨hac, hrest⟩ := h
    have hr := ih c b hrest
    rw [List.length_cons]
    exact reachIn_step succ (l'.length + 1) a b c hac hr

/-- A successful findSome? comes from some list element. -/
theorem findSomeEqSome {α β : Type} (f : α → Option β) :
    ∀ (l : List α) (b : β), l.findSome? f = some b → ∃ a ∈ l, f a = some b := by
  intro l
  induction l with
  | nil => intro b h; simp [List.findSome?_nil] at h
  | cons a t ih =>
    intro b h
    rw [List.findSome?_cons] at h
    cases hf : f a with
    | some c =>
      rw [hf] at h
      exact ⟨a, by simp, by rw [hf]; exact h⟩
    | none =>
      rw [hf] at h
      obtain ⟨x, hx, hfx⟩ := ih b h
      exact ⟨x, by simp [hx], hfx⟩

/-- Dropping the prefix before the first occurrence of a member leaves the
member at the head. -/
theorem dropWhileMem {v : GNode} :
    ∀ (l : List GNode), v ∈ l →
      ∃ p t, l = p ++ v :: t ∧ l.dropWhile (fun x => decide (x ≠ v)) = v :: t := by
  intro l
  induction l with
  | nil => intro h; simp at h
  | cons a t' ih =>
    intro h
    by_cases hav : a = v
    · subst hav
      refine ⟨[], t', by simp, ?_⟩
      rw [List.dropWhile_cons, if_neg (by simp)]
    · have hv : v ∈ t' := by
        rcases List.mem_cons.mp h with h1 | h1
        · exact absurd h1.symm hav
        · exact h1
      obtain ⟨p, t, hpt, hdw⟩ := ih hv
      refine ⟨a :: p, t, by simp [hpt], ?_⟩
      rw [List.dropWhile_cons, if_pos (by simp [hav]), hdw]

/-- Soundness of the depth-first search: whenever it reports a cycle, some
listed node genuinely reaches itself within the node-count bound. -/
theorem dfsAux_sound (succ : GNode → List GNode) (ns : List GNode)
    (hout : ∀ x, succ x ≠ [] → x ∈ ns) :
    ∀ (fuel : Nat) (stack : List GNode) (v : GNode) (res : List GNode),
      dfsAux succ fuel stack v = some res →
      stack.Nodup → (∀ x ∈ stack, x ∈ ns) →
      List.Chain' (fun x y => y ∈ succ x) (stack ++ [v]) →
      ∃ w ∈ ns, reachIn succ ns.length w w = true := by
  intro fuel
  induction fuel with
  | zero => intro stack v res h; simp [dfsAux] at h
  | succ fuel ih =>
    intro stack v res h hnd hsub hch
    rw [dfsAux] at h
    by_cases hv : v ∈ stack
    · obtain ⟨p, t, hpt, hdw⟩ := dropWhileMem stack hv
      have hsfx : (v :: (t ++ [v])) <:+ (stack ++ [v]) := ⟨p, by rw [hpt]; simp⟩
      have hch2 : List.Chain' (fun x y => y ∈ succ x) (v :: t ++ [v]) := hch.suffix hsfx
      have hreach := chain_to_reachIn succ t v v hch2
      have hsubl : (v :: t).Sublist stack := by
        rw [hpt]
        exact (List.suffix_append p (v :: t)).sublist
      have hnodup2 : (v :: t).Nodup := List.Nodup.sublist hsubl hnd
      have hsubset : ∀ x ∈ (v :: t), x ∈ ns := fun x hx => hsub x (hsubl.subset hx)
      have hlen : (v :: t).length ≤ ns.length := by
        have h1 : (v :: t).toFinset.card = (v :: t).length := List.toFinset_card_of_nodup hnodup2
        have h2 : (v :: t).toFinset ⊆ ns.toFinset := by
          intro x hx
          exact List.mem_toFinset.mpr (hsubset x (List.mem_toFinset.mp hx))
        calc (v :: t).length = (v :: t).toFinset.card := h1.symm
          _ ≤ ns.toFinset.card := Finset.card_le_card h2
          _ ≤ ns.length := List.toFinset_card_le ns
      refine ⟨v, hsubset v (by simp), ?_⟩
      exact reachIn_mono succ ns.length (t.length + 1) v v (by simpa using hlen) hreach
    · rw [if_neg hv] at h
      obtain ⟨c, hc, hrec⟩ := findSomeEqSome _ (succ v) res h
      have hvns : v ∈ ns := hout v (by intro he; rw [he] at hc; simp at hc)
      apply ih (stack ++ [v]) c res hrec
      · rw [List.nodup_append]
        exact ⟨hnd, List.nodup_singleton v, by
          intro a ha hav
          simp at hav
          subst hav
          exact hv ha⟩
      · intro x hx
        rcases List.mem_append.mp hx with h1 | h1
        · exact hsub x h1
        · simp at h1
          subst h1
          exact hvns
      · rw [List.chain'_append]
        refine ⟨hch, List.chain'_singleton c, ?_⟩
        intro x hx y hy
        simp [List.getLast?_concat] at hx
        simp at hy
        subst hx
        subst hy
        exact hc

/-- Soundness of the cycle detector: a reported cycle implies the
existential cycle predicate. -/
theorem findCycleCore_sound (procs : List Process) (ress : List Resource)
    (h : findCycleCore procs ress ≠ none) : hasCycleCore procs ress = true := by
  rw [findCycleCore] at h
  obtain ⟨res, hres⟩ := Option.ne_none_iff_exists'.mp h
  obtain ⟨v0, _, hdfs⟩ := findSomeEqSome _ _ res hres
  have hout : ∀ x, succsCore procs ress x ≠ [] → x ∈ gnodesCore procs ress := by
    intro x hne
    match x with
    | GNode.P pid =>
      rw [succsCore] at hne
      cases hf : procs.find? (fun p => p.id == pid) with
      | none => rw [hf] at hne; exact absurd rfl hne
      | some p =>
        have hmem := List.mem_of_find?_eq_some hf
        have hid : p.id = pid := by
          have := List.find?_some hf
          simpa using this
        rw [gnodesCore, List.mem_append]
        exact Or.inl (List.mem_map.mpr ⟨p, hmem, by rw [hid]⟩)
    | GNode.R rid =>
      rw [succsCore] at hne
      cases hf : ress.find? (fun r => r.id == rid) with
      | none => rw [hf] at hne; exact absurd rfl hne
      | some r =>
        have hmem := List.mem_of_find?_eq_some hf
        have hid : r.id = rid := by
          have := List.find?_some hf
          simpa using this
        rw [gnodesCore, List.mem_append]
        exact Or.inr (List.mem_map.mpr ⟨r, hmem, by rw [hid]⟩)
  obtain ⟨w, hw, hr⟩ :=
    dfsAux_sound _ _ hout _ [] v0 res hdfs (by simp) (by simp) (List.chain'_singleton v0)
  rw [hasCycleCore, List.any_eq_true]
  exact ⟨w, hw, hr⟩

/-- No node reaches a node that is nobody's successor. -/
theorem reachIn_noTarget (succ : GNode → List GNode) (bad : GNode)
    (hno : ∀ x, bad ∉ succ x) :
    ∀ (n : Nat) (a : GNode), reachIn succ n a bad = false := by
  intro n
  induction n with
  | zero => intro a; rfl
  | succ n ih =>
    intro a
    simp only [reachIn, Bool.or_eq_false_iff, decide_eq_false_iff_not, List.any_eq_false]
    exact ⟨hno a, fun c _ => by simp [ih c]⟩

/-- A reachability path avoiding an isolated node transfers to any
successor function agreeing away from that node. -/
theorem reachIn_transfer (su su' : GNode → List GNode) (bad : GNode)
    (hno : ∀ x, bad ∉ su' x) (hag : ∀ x, x ≠ bad → su' x = su x) :
    ∀ (n : Nat) (a b : GNode), a ≠ bad → reachIn su' n a b = true → reachIn su n a b = true := by
  intro n
  induction n with
  | zero => intro a b ha h; simp [reachIn] at h
  | succ n ih =>
    intro a b ha h
    simp only [reachIn, Bool.or_eq_true, decide_eq_true_eq, List.any_eq_true] at h ⊢
    rcases h with h1 | ⟨c, hc, hr⟩
    · rw [hag a ha] at h1
      exact Or.inl h1
    · have hcbad : c ≠ bad := fun he => hno a (he ▸ hc)
      have hc' : c ∈ su a := by rw [← hag a ha]; exact hc
      exact Or.inr ⟨c, hc', ih c b hcbad hr⟩

/-- Claim C6: after reset the system is in the empty initial state: the
process list, resource list, graph nodes and edges, and the activity log
are all empty. -/
theorem spec_reset_empty (s : EngineState) :
    (removeAll s).processes = [] ∧ (removeAll s).resources = [] ∧
    (removeAll s).log = [] ∧ gnodes (removeAll s) = [] ∧ edgesOf (removeAll s) = [] :=
  ⟨rfl, rfl, rfl, rfl, rfl⟩

/-- Claim C7: detectDeadlock called twice without intervening mutation
yields identical results, and it is a pure read on the graph: it never
changes the processes or resources, so it never triggers recovery. -/
theorem spec_detect_idempotent (s : EngineState) :
    (detectDeadlock ((detectDeadlock s).snd)).fst = (detectDeadlock s).fst ∧
    ((detectDeadlock s).snd).processes = s.processes ∧
    ((detectDeadlock s).snd).resources = s.resources := by
  cases hfc : findCycleCore s.processes s.resources with
  | some c => simp [detectDeadlock, appendLog, hfc]
  | none => simp [detectDeadlock, appendLog, hfc]

/-- Claim C8: every edge of the graph view is tagged with exactly one of
the two kinds, allocation edges run from a resource to a process, request
edges run from a process to a resource, and the front-end renderer draws
every non-allocation kind with the request style. -/
theorem spec_edges_tagged (s : EngineState) (e : GEdge) (he : e ∈ edgesOf s) :
    (e.kind = EdgeKind.allocation ∨ e.kind = EdgeKind.request) ∧
    (e.kind ≠ EdgeKind.allocation → renderEdgeStyle (kindStr e.kind) = ⟨"#ef4444", 3, [8, 4]⟩) ∧
    (e.kind = EdgeKind.allocation → renderEdgeStyle (kindStr e.kind) = ⟨"#10b981", 3, []⟩) ∧
    (e.kind = EdgeKind.allocation → ∃ x y, e.src = GNode.R x ∧ e.dst = GNode.P y) ∧
    (e.kind = EdgeKind.request → ∃ x y, e.src = GNode.P x ∧ e.dst = GNode.R y) := by
  rcases List.mem_append.mp he with h1 | h1
  · obtain ⟨r, _, hf⟩ := List.mem_filterMap.mp h1
    cases hb : r.heldBy with
    | none => rw [hb] at hf; simp at hf
    | some h =>
      rw [hb] at hf
      have he2 : e = ⟨EdgeKind.allocation, GNode.R r.id, GNode.P h⟩ := by
        simpa using hf.symm
      subst he2
      simp [renderEdgeStyle, kindStr]
  · obtain ⟨p, _, hmem⟩ := List.mem_flatMap.mp h1
    obtain ⟨x, _, hx⟩ := List.mem_map.mp hmem
    have he2 : e = ⟨EdgeKind.request, GNode.P p.id, GNode.R x⟩ := hx.symm
    subst he2
    simp [renderEdgeStyle, kindStr]

/-- Witness for claim C8 on a concrete edge of a concrete store. -/
theorem spec_edges_tagged_witness :
    ((⟨EdgeKind.allocation, GNode.R "R1", GNode.P "P1"⟩ : GEdge).kind = EdgeKind.allocation ∨
     (⟨EdgeKind.allocation, GNode.R "R1", GNode.P "P1"⟩ : GEdge).kind = EdgeKind.request) :=
  (spec_edges_tagged wsWait ⟨EdgeKind.allocation, GNode.R "R1", GNode.P "P1"⟩ (by decide)).1

/-- Claim C9: invoking addProcess or addResource with an id that is blank
after trimming sends no request to the backend, leaves the page state
unchanged, and warns the user. -/
theorem spec_empty_id_guard (s : UIState) (o1 o2 : FetchOutcome)
    (h1 : strTrim s.processInput = "") (h2 : strTrim s.resourceInput = "") :
    (addProcessUI s o1).requestSent = false ∧ (addProcessUI s o1).state = s ∧
    (s.isProcessing = false → (addProcessUI s o1).alerted = true) ∧
    (addResourceUI s o2).requestSent = false ∧ (addResourceUI s o2).state = s ∧
    (addResourceUI s o2).alerted = true := by
  cases hb : s.isProcessing with
  | true => simp [addProcessUI, addResourceUI, hb, h1, h2]
  | false => simp [addProcessUI, addResourceUI, hb, h1, h2]

/-- Witness for claim C9 on a concrete page state with blank inputs. -/
theorem spec_empty_id_guard_witness :
    (addProcessUI wsPage FetchOutcome.okSuccess).requestSent = false ∧
    (addResourceUI wsPage FetchOutcome.threw).requestSent = false :=
  ⟨(spec_empty_id_guard wsPage FetchOutcome.okSuccess FetchOutcome.threw
      (by decide) (by decide)).1,
   (spec_empty_id_guard wsPage FetchOutcome.okSuccess FetchOutcome.threw
      (by decide) (by decide)).2.2.2.1⟩

/-- Claim C10: an addProcess invocation that passes the guards always sends
the request and finishes with isProcessing and pauseAutoRefresh false and
the button restored, whatever the fetch outcome; and a call made while
isProcessing is true returns without sending a request or touching the
page. -/
theorem spec_addProcess_flags (s : UIState) (o : FetchOutcome) :
    (s.isProcessing = false → strTrim s.processInput ≠ "" →
      (addProcessUI s o).requestSent = true ∧
      (addProcessUI s o).state.isProcessing = false ∧
      (addProcessUI s o).state.pauseAutoRefresh = false ∧
      (addProcessUI s o).state.buttonText = s.buttonText ∧
      (addProcessUI s o).state.buttonDisabled = false) ∧
    (s.isProcessing = true →
      (addProcessUI s o).requestSent = false ∧ (addProcessUI s o).state = s) := by
  constructor
  · intro hb hne
    have hbeq : (strTrim s.processInput == "") = false := by
      simpa using hne
    cases o <;> simp [addProcessUI, hb, hbeq]
  · intro hb
    simp [addProcessUI, hb]

/-- Witness for claim C10: a completed call with a valid input and a busy
call on concrete page states. -/
theorem spec_addProcess_flags_witness :
    ((addProcessUI wsPageOk FetchOutcome.threw).requestSent = true ∧
     (addProcessUI wsPageOk FetchOutcome.threw).state.isProcessing = false ∧
     (addProcessUI wsPageOk FetchOutcome.threw).state.pauseAutoRefresh = false ∧
     (addProcessUI wsPageOk FetchOutcome.threw).state.buttonText = wsPageOk.buttonText ∧
     (addProcessUI wsPageOk FetchOutcome.threw).state.buttonDisabled = false) ∧
    (addProcessUI wsPageBusy FetchOutcome.okSuccess).requestSent = false :=
  ⟨(spec_addProcess_flags wsPageOk FetchOutcome.threw).1 (by decide) (by decide),
   ((spec_addProcess_flags wsPageBusy FetchOutcome.okSuccess).2 (by decide)).1⟩

/-- Claim C2 (amended): every requestResource call returns exactly one of
six mutually exclusive outcomes, allocated, waiting with the current holder
reported, denied with a cycle description, NotFound, AlreadyHeld or
AlreadyWaiting, distinguishable from the result; in the waiting case the
reported holder is the resource's current holder, and NotFound occurs
exactly when one of the ids is unknown. -/
theorem spec_request_outcomes (s : EngineState) (pid rid : String) :
    ((requestResource s pid rid).fst = ReqResult.allocated ∨
     (∃ h, (requestResource s pid rid).fst = ReqResult.waiting h) ∨
     (∃ d, (requestResource s pid rid).fst = ReqResult.denied d) ∨
     (requestResource s pid rid).fst = ReqResult.notFound ∨
     (requestResource s pid rid).fst = ReqResult.alreadyHeld ∨
     (requestResource s pid rid).fst = ReqResult.alreadyWaiting) ∧
    (∀ h, (requestResource s pid rid).fst = ReqResult.waiting h →
      ∃ r, findResource s rid = some r ∧ r.heldBy = some h) ∧
    ((requestResource s pid rid).fst = ReqResult.notFound ↔
      (findProcess s pid = none ∨ findResource s rid = none)) := by
  rcases hp : findProcess s pid with _ | p
  · simp [requestResource, hp]
  · rcases hr : findResource s rid with _ | r
    · simp [requestResource, hp, hr]
    · by_cases h1 : rid ∈ p.held
      · simp [requestResource, hp, hr, h1]
      · by_cases h2 : rid ∈ p.waitingFor
        · simp [requestResource, hp, hr, h1, h2]
        · cases hb : r.heldBy with
          | none => simp [requestResource, hp, hr, h1, h2, hb]
          | some holder =>
            cases hfc : findCycleCore (addWaitEdge s pid rid).processes
                (addWaitEdge s pid rid).resources with
            | none =>
              refine ⟨?_, ?_, ?_⟩
              · refine Or.inr (Or.inl ⟨holder, ?_⟩)
                simp [requestResource, hp, hr, h1, h2, hb, hfc]
              · intro h heq
                have : holder = h := by
                  simp [requestResource, hp, hr, h1, h2, hb, hfc] at heq
                  exact heq
                exact ⟨r, rfl, by rw [hb, this]⟩
              · simp [requestResource, hp, hr, h1, h2, hb, hfc]
            | some c =>
              refine ⟨?_, ?_, ?_⟩
              · refine Or.inr (Or.inr (Or.inl ⟨describeCycle c, ?_⟩))
                simp [requestResource, hp, hr, h1, h2, hb, hfc]
              · intro h heq
                simp [requestResource, hp, hr, h1, h2, hb, hfc] at heq
              · simp [requestResource, hp, hr, h1, h2, hb, hfc]

/-- Witness for claim C2 exercising the waiting branch on a concrete
store. -/
theorem spec_request_outcomes_witness :
    ∃ r, findResource wsBasic "R1" = some r ∧ r.heldBy = some "P1" :=
  (spec_request_outcomes wsBasic "P2" "R1").2.1 "P1" (by decide)

/-- Counterexample for claim C2 as frozen: requesting a resource the
process already holds yields a fifth outcome, AlreadyHeld, which is none
of the four outcome shapes the claim enumerates. -/
theorem spec_request_outcomes_cex :
    isSpecOutcome (requestResource wsBasic "P1" "R1").fst = false := by decide

/-- Mapping with a field-preserving function preserves a projected list. -/
theorem map_comp_eq {α β : Type} (l : List α) (f : α → α) (g : α → β)
    (hf : ∀ a, g (f a) = g a) : (l.map f).map g = l.map g := by
  induction l with
  | nil => rfl
  | cons a t ih => simp [hf, ih]

/-- Lookup commutes with mapping by a predicate-preserving function. -/
theorem find_map {α : Type} (l : List α) (f : α → α) (p : α → Bool)
    (hf : ∀ a, p (f a) = p a) : (l.map f).find? p = (l.find? p).map f := by
  induction l with
  | nil => rfl
  | cons a t ih =>
    simp only [List.map_cons, List.find?_cons, hf a]
    cases hp : p a
    · simp [ih]
    · simp

/-- Two members of a list with nodup projections and equal projections are
equal. -/
theorem unique_of_nodup_ids {α β : Type} (g : α → β) (l : List α)
    (hnd : (l.map g).Nodup) (a b : α) (ha : a ∈ l) (hb : b ∈ l) (h : g a = g b) : a = b :=
  List.inj_on_of_nodup_map hnd ha hb h

/-- Granting an available resource with no waiters creates no edge into the
resource node. -/
theorem grant_no_in_edge (s : EngineState) (pid rid : String) (hwf : WF s)
    (r : Resource) (hfr : findResource s rid = some r) (hb : r.heldBy = none) :
    ∀ x, GNode.R rid ∉ succs (grantTo s pid rid) x := by
  intro x
  have hrmem : r ∈ s.resources := List.mem_of_find?_eq_some hfr
  have hrid : r.id = rid := by simpa using List.find?_some hfr
  cases x with
  | P q =>
    show GNode.R rid ∉ succsCore (grantTo s pid rid).processes (grantTo s pid rid).resources (GNode.P q)
    rw [succsCore]
    rw [show (grantTo s pid rid).processes
          = s.processes.map (fun q2 => if q2.id == pid then { q2 with held := q2.held ++ [rid] } else q2) from rfl]
    rw [find_map _ _ _ (by intro a; by_cases ha : (a.id == pid) = true <;> simp [ha])]
    cases hf : s.processes.find? (fun p => p.id == q) with
    | none =>
      show GNode.R rid ∉ ([] : List GNode)
      exact List.not_mem_nil _
    | some pq =>
      have hwfeq : (if pq.id == pid then { pq with held := pq.held ++ [rid] } else pq).waitingFor
          = pq.waitingFor := by
        by_cases ha : (pq.id == pid) = true <;> simp [ha]
      show GNode.R rid ∉
        ((if pq.id == pid then { pq with held := pq.held ++ [rid] } else pq).waitingFor.map GNode.R)
      rw [hwfeq]
      intro hmem
      obtain ⟨x0, hx0, hx0e⟩ := List.mem_map.mp hmem
      have hx0r : x0 = rid := by simpa using hx0e
      rw [hx0r] at hx0
      obtain ⟨r2, hr2mem, hr2id, hr2q⟩ := hwf.waitFwd pq (List.mem_of_find?_eq_some hf) rid hx0
      have hr2r : r2 = r := unique_of_nodup_ids (fun rr => rr.id) s.resources hwf.resNodup r2 r
        hr2mem hrmem (by show r2.id = r.id; rw [hr2id, hrid])
      rw [hr2r] at hr2q
      rw [hwf.availNoQueue r hrmem hb] at hr2q
      simp at hr2q
  | R y =>
    show GNode.R rid ∉ succsCore (grantTo s pid rid).processes (grantTo s pid rid).resources (GNode.R y)
    rw [succsCore]
    cases hf : (grantTo s pid rid).resources.find? (fun r2 => r2.id == y) with
    | none =>
      show GNode.R rid ∉ ([] : List GNode)
      exact List.not_mem_nil _
    | some re =>
      cases hhb : re.heldBy with
      | none => simp [hhb]
      | some h2 => simp [hhb]

/-- Away from the granted resource node the successor function is
unchanged by a grant. -/
theorem grant_succs_eq (s : EngineState) (pid rid : String) :
    ∀ x, x ≠ GNode.R rid → succs (grantTo s pid rid) x = succs s x := by
  intro x hx
  cases x with
  | P q =>
    show succsCore (grantTo s pid rid).processes (grantTo s pid rid).resources (GNode.P q)
        = succsCore s.processes s.resources (GNode.P q)
    rw [succsCore, succsCore]
    rw [show (grantTo s pid rid).processes
          = s.processes.map (fun q2 => if q2.id == pid then { q2 with held := q2.held ++ [rid] } else q2) from rfl]
    rw [find_map _ _ _ (by intro a; by_cases ha : (a.id == pid) = true <;> simp [ha])]
    cases hf : s.processes.find? (fun p => p.id == q) with
    | none => simp
    | some pq =>
      simp only [Option.map_some]
      by_cases ha : pq.id = pid <;> simp [ha]
  | R y =>
    have hy : y ≠ rid := by
      intro he
      exact hx (by rw [he])
    show succsCore (grantTo s pid rid).processes (grantTo s pid rid).resources (GNode.R y)
        = succsCore s.processes s.resources (GNode.R y)
    rw [succsCore, succsCore]
    rw [show (grantTo s pid rid).resources
          = s.resources.map (fun x2 => if x2.id == rid then { x2 with status := RStatus.allocated, heldBy := some pid } else x2) from rfl]
    rw [find_map _ _ _ (by intro a; by_cases ha : (a.id == rid) = true <;> simp [ha])]
    cases hf : s.resources.find? (fun r => r.id == y) with
    | none => simp
    | some re =>
      simp only [Option.map_some]
      have hre : re.id = y := by simpa using List.find?_some hf
      have hne2 : ¬ re.id = rid := by rw [hre]; exact hy
      simp [hne2]

/-- A grant does not change the node list of the graph. -/
theorem grant_gnodes_eq (s : EngineState) (pid rid : String) :
    gnodes (grantTo s pid rid) = gnodes s := by
  show gnodesCore (grantTo s pid rid).processes (grantTo s pid rid).resources
      = gnodesCore s.processes s.resources
  rw [gnodesCore, gnodesCore]
  rw [show (grantTo s pid rid).processes
        = s.processes.map (fun q2 => if q2.id == pid then { q2 with held := q2.held ++ [rid] } else q2) from rfl]
  rw [show (grantTo s pid rid).resources
        = s.resources.map (fun x2 => if x2.id == rid then { x2 with status := RStatus.allocated, heldBy := some pid } else x2) from rfl]
  rw [map_comp_eq _ _ _ (by intro a; by_cases ha : (a.id == pid) = true <;> simp [ha])]
  rw [map_comp_eq _ _ _ (by intro a; by_cases ha : (a.id == rid) = true <;> simp [ha])]

/-- Cycle existence stated through the node list and successor function. -/
theorem hasCycleB_eq_any (s : EngineState) :
    hasCycleB s = (gnodes s).any (fun v => reachIn (succs s) (gnodes s).length v v) := rfl

/-- Granting an available resource in a well-formed acyclic store keeps the
graph acyclic in the existential sense. -/
theorem grant_keeps_acyclic (s : EngineState) (pid rid : String) (hwf : WF s)
    (hacyc : hasCycleB s = false) (r : Resource)
    (hfr : findResource s rid = some r) (hb : r.heldBy = none) :
    hasCycleB (grantTo s pid rid) = false := by
  by_contra hne
  have hcyc : hasCycleB (grantTo s pid rid) = true := by
    cases hcase : hasCycleB (grantTo s pid rid)
    · exact absurd hcase hne
    · rfl
  rw [hasCycleB_eq_any, grant_gnodes_eq] at hcyc
  obtain ⟨v, hv, hrv⟩ := List.any_eq_true.mp hcyc
  have hno := grant_no_in_edge s pid rid hwf r hfr hb
  have hvne : v ≠ GNode.R rid := by
    intro he
    subst he
    rw [reachIn_noTarget (succs (grantTo s pid rid)) (GNode.R rid) hno _ _] at hrv
    exact Bool.false_ne_true hrv
  have htrans := reachIn_transfer (succs s) (succs (grantTo s pid rid)) (GNode.R rid)
    hno (grant_succs_eq s pid rid) (gnodes s).length v v hvne hrv
  have : hasCycleB s = true := by
    rw [hasCycleB_eq_any, List.any_eq_true]
    exact ⟨v, hv, htrans⟩
  rw [hacyc] at this
  exact Bool.false_ne_true this

/-- An acyclic store makes the cycle detector return nothing. -/
theorem findCycle_none_of_acyclic (s : EngineState) (h : hasCycleB s = false) :
    findCycle s = none := by
  by_contra hne
  have hs : hasCycleCore s.processes s.resources = true :=
    findCycleCore_sound s.processes s.resources hne
  rw [show hasCycleB s = hasCycleCore s.processes s.resources from rfl, hs] at h
  exact Bool.true_eq_false.mp h

/-- Claim C1: when requestResource denies a request, forcing that wait edge
into the graph makes the cycle detector find a cycle; when it reports
waiting or allocated, the detector finds no cycle in the resulting state.
The store is assumed well-formed and acyclic, the spec's standing
invariants on live states. -/
theorem spec_request_safety (s : EngineState) (pid rid : String) (hwf : WF s)
    (hacyc : hasCycleB s = false) :
    ((∃ d, (requestResource s pid rid).fst = ReqResult.denied d) →
        findCycle (addWaitEdge s pid rid) ≠ none) ∧
    ((∃ h, (requestResource s pid rid).fst = ReqResult.waiting h) →
        findCycle (requestResource s pid rid).snd = none) ∧
    ((requestResource s pid rid).fst = ReqResult.allocated →
        findCycle (requestResource s pid rid).snd = none) := by
  rcases hp : findProcess s pid with _ | p
  · have hfst : (requestResource s pid rid).fst = ReqResult.notFound := by
      simp [requestResource, hp]
    refine ⟨?_, ?_, ?_⟩
    · rintro ⟨d, hd⟩; rw [hfst] at hd; simp at hd
    · rintro ⟨h, hh⟩; rw [hfst] at hh; simp at hh
    · intro h; rw [hfst] at h; simp at h
  · rcases hr : findResource s rid with _ | r
    · have hfst : (requestResource s pid rid).fst = ReqResult.notFound := by
        simp [requestResource, hp, hr]
      refine ⟨?_, ?_, ?_⟩
      · rintro ⟨d, hd⟩; rw [hfst] at hd; simp at hd
      · rintro ⟨h, hh⟩; rw [hfst] at hh; simp at hh
      · intro h; rw [hfst] at h; simp at h
    · by_cases h1 : rid ∈ p.held
      · have hfst : (requestResource s pid rid).fst = ReqResult.alreadyHeld := by
          simp [requestResource, hp, hr, h1]
        refine ⟨?_, ?_, ?_⟩
        · rintro ⟨d, hd⟩; rw [hfst] at hd; simp at hd
        · rintro ⟨h, hh⟩; rw [hfst] at hh; simp at hh
        · intro h; rw [hfst] at h; simp at h
      · by_cases h2 : rid ∈ p.waitingFor
        · have hfst : (requestResource s pid rid).fst = ReqResult.alreadyWaiting := by
            simp [requestResource, hp, hr, h1, h2]
          refine ⟨?_, ?_, ?_⟩
          · rintro ⟨d, hd⟩; rw [hfst] at hd; simp at hd
          · rintro ⟨h, hh⟩; rw [hfst] at hh; simp at hh
          · intro h; rw [hfst] at h; simp at h
        · rcases hb : r.heldBy with _ | holder
          · have hres : requestResource s pid rid
                = (ReqResult.allocated,
                   appendLog (grantTo s pid rid) "success"
                     ("Resource " ++ rid ++ " allocated to " ++ pid)) := by
              simp [requestResource, hp, hr, h1, h2, hb]
            rw [hres]
            refine ⟨?_, ?_, ?_⟩
            · rintro ⟨d, hd⟩; simp at hd
            · rintro ⟨h, hh⟩; simp at hh
            · intro _
              show findCycle (appendLog (grantTo s pid rid) "success"
                ("Resource " ++ rid ++ " allocated to " ++ pid)) = none
              have hga : hasCycleB (grantTo s pid rid) = false :=
                grant_keeps_acyclic s pid rid hwf hacyc r hr hb
              exact findCycle_none_of_acyclic (grantTo s pid rid) hga
          · cases hfc : findCycleCore (addWaitEdge s pid rid).processes
                (addWaitEdge s pid rid).resources with
            | none =>
              have hres : requestResource s pid rid
                  = (ReqResult.waiting holder,
                     appendLog (addWaitEdge s pid rid) "warning"
                       ("Process " ++ pid ++ " waiting for " ++ rid)) := by
                simp [requestResource, hp, hr, h1, h2, hb, hfc]
              rw [hres]
              refine ⟨?_, ?_, ?_⟩
              · rintro ⟨d, hd⟩; simp at hd
              · intro _
                show findCycle (appendLog (addWaitEdge s pid rid) "warning"
                  ("Process " ++ pid ++ " waiting for " ++ rid)) = none
                exact hfc
              · intro h; simp at h
            | some c =>
              have hfst : (requestResource s pid rid).fst
                  = ReqResult.denied (describeCycle c) := by
                simp [requestResource, hp, hr, h1, h2, hb, hfc]
              refine ⟨?_, ?_, ?_⟩
              · intro _
                show findCycleCore (addWaitEdge s pid rid).processes
                  (addWaitEdge s pid rid).resources ≠ none
                rw [hfc]
                simp
              · rintro ⟨h, hh⟩; rw [hfst] at hh; simp at hh
              · intro h; rw [hfst] at h; simp at h

/-- Witness for claim C1: a denied request on a store one edge away from a
circular wait, and an allocated request on a free resource. -/
theorem spec_request_safety_witness :
    findCycle (addWaitEdge wsWait "P2" "R1") ≠ none ∧
    findCycle (requestResource wsBasic "P2" "R2").snd = none :=
  ⟨(spec_request_safety wsWait "P2" "R1" (by constructor <;> decide) (by decide)).1
      ⟨"P1 -> R2 -> P2 -> R1 -> P1", by decide⟩,
   (spec_request_safety wsBasic "P2" "R2" (by constructor <;> decide) (by decide)).2.2
      (by decide)⟩

/-- Claim C4: recover on an acyclic state fails with NoDeadlock and leaves
the whole store, in particular the graph, unchanged. -/
theorem spec_recover_acyclic (s : EngineState) (hacyc : hasCycleB s = false) :
    recoverDeadlock s = (RecoverResult.noDeadlock, s) := by
  have hfc : findCycleCore s.processes s.resources = none :=
    findCycle_none_of_acyclic s hacyc
  simp [recoverDeadlock, hfc]

/-- Witness for claim C4 on a concrete acyclic store. -/
theorem spec_recover_acyclic_witness :
    recoverDeadlock wsWait = (RecoverResult.noDeadlock, wsWait) :=
  spec_recover_acyclic wsWait (by decide)

/-- A fold over a binary choice stays among the candidates. -/
theorem foldl_pick_mem {α : Type} (f : α → α → α) (hf : ∀ acc q, f acc q = acc ∨ f acc q = q) :
    ∀ (t : List α) (a : α), t.foldl f a ∈ a :: t := by
  intro t
  induction t with
  | nil => intro a; simp
  | cons b t' ih =>
    intro a
    rw [List.foldl_cons]
    rcases List.mem_cons.mp (ih (f a b)) with h | h
    · rcases hf a b with h2 | h2
      · rw [h, h2]; simp
      · rw [h, h2]; simp
    · exact List.mem_cons_of_mem _ (List.mem_cons_of_mem _ h)

/-- The victim preference always returns one of its two arguments. -/
theorem pickBetter_or (acc q : Process) : pickBetter acc q = acc ∨ pickBetter acc q = q := by
  rw [pickBetter]
  split
  · exact Or.inr rfl
  · exact Or.inl rfl

/-- The selected victim is one of the candidates. -/
theorem pickVictim_mem (l : List Process) (pv : Process) (h : pickVictim l = some pv) :
    pv ∈ l := by
  match l with
  | [] => simp [pickVictim] at h
  | a :: t =>
    have hfold : t.foldl pickBetter a = pv := by simpa [pickVictim] using h
    rw [← hfold]
    exact foldl_pick_mem pickBetter pickBetter_or t a

/-- Claim C5: every successful recover call returns the terminated victim's
process id and the list of resource ids it released: the victim existed in
the pre-state, the released list is exactly what it held, and the victim is
gone from the post-state. -/
theorem spec_recover_victim (s : EngineState) (v : String) (rel : List String)
    (h : (recoverDeadlock s).fst = RecoverResult.ok v rel) :
    ∃ pv, findProcess s v = some pv ∧ rel = pv.held ∧
      ((recoverDeadlock s).snd).processes.all (fun q => q.id != v) = true := by
  cases hfc : findCycleCore s.processes s.resources with
  | none =>
    have hres : recoverDeadlock s = (RecoverResult.noDeadlock, s) := by
      simp [recoverDeadlock, hfc]
    rw [hres] at h
    simp at h
  | some c =>
    cases hpv : pickVictim (c.filterMap (fun n =>
        match n with
        | GNode.P pid => findProcess s pid
        | GNode.R _ => none)) with
    | none =>
      have hres : recoverDeadlock s = (RecoverResult.invalidState, s) := by
        simp [recoverDeadlock, hfc, hpv]
      rw [hres] at h
      simp at h
    | some pv =>
      have hres : recoverDeadlock s =
          (RecoverResult.ok pv.id pv.held,
            appendLog (removeVictim (pv.held.foldl (fun st x => releaseResource st pv.id x) s) pv.id)
              "error" ("Process " ++ pv.id ++ " terminated")) := by
        simp [recoverDeadlock, hfc, hpv]
      rw [hres] at h ⊢
      simp only [RecoverResult.ok.injEq] at h
      obtain ⟨hv, hrel⟩ := h
      have hpvmem := pickVictim_mem _ pv hpv
      obtain ⟨n, _, hng⟩ := List.mem_filterMap.mp hpvmem
      cases n with
      | R y => simp at hng
      | P pid0 =>
        have hng' : findProcess s pid0 = some pv := hng
        have hid : pv.id = pid0 := by simpa using List.find?_some hng'
        refine ⟨pv, ?_, ?_, ?_⟩
        · rw [← hv, hid]
          exact hng'
        · exact hrel.symm
        · rw [List.all_eq_true]
          intro q hq
          have hq2 := List.mem_filter.mp hq
          rw [← hv]
          exact hq2.2

/-- Witness for claim C5 on a concrete deadlocked store: recovery
terminates P1 and releases R1. -/
theorem spec_recover_victim_witness :
    ∃ pv, findProcess wsDead "P1" = some pv ∧ ["R1"] = pv.held ∧
      ((recoverDeadlock wsDead).snd).processes.all (fun q => q.id != "P1") = true :=
  spec_recover_victim wsDead "P1" ["R1"] (by decide)

/-- With nodup keys, lookup of a member's key returns that member. -/
theorem find_eq_of_nodup {α : Type} (g2 : α → String) :
    ∀ (l : List α), (l.map g2).Nodup → ∀ a ∈ l, ∀ k, g2 a = k →
      l.find? (fun x => g2 x == k) = some a := by
  intro l
  induction l with
  | nil => intro _ a ha; simp at ha
  | cons b tl ih =>
    intro hnd a ha k hk
    by_cases hbk : g2 b = k
    · have hab : a = b := by
        rcases List.mem_cons.mp ha with h1 | h1
        · exact h1
        · exfalso
          have hmap : g2 a ∈ tl.map g2 := List.mem_map.mpr ⟨a, h1, rfl⟩
          rw [hk, ← hbk] at hmap
          rw [List.map_cons] at hnd
          exact (List.nodup_cons.mp hnd).1 hmap
      have hbeq : (g2 b == k) = true := by simp [hbk]
      simp [List.find?_cons, hbeq, hab]
    · have hbeq : (g2 b == k) = false := by simp [hbk]
      rw [List.find?_cons, hbeq]
      have hat : a ∈ tl := by
        rcases List.mem_cons.mp ha with h1 | h1
        · exact absurd (h1 ▸ hk) hbk
        · exact h1
      exact ih (by rw [List.map_cons] at hnd; exact (List.nodup_cons.mp hnd).2) a hat k hk

/-- Filtering out an absent element changes nothing. -/
theorem filter_ne_self {l : List String} {a : String} (h : a ∉ l) :
    l.filter (fun x => x != a) = l := by
  apply List.filter_eq_self.mpr
  intro x hx
  simp
  intro he
  exact h (he ▸ hx)

/-- Filtering the head out of a nodup list yields the tail. -/
theorem filter_cons_self {a : String} {ls : List String} (hnd : (a :: ls).Nodup) :
    (a :: ls).filter (fun x => x != a) = ls := by
  rw [List.filter_cons]
  have : (a != a) = false := by simp
  rw [this]
  simp only [Bool.false_eq_true, if_false]
  exact filter_ne_self (List.nodup_cons.mp hnd).1

/-- A well-formed store is allocation consistent. -/
theorem allocConsistent_of_WF (s : EngineState) (hwf : WF s) : AllocConsistent s :=
  ⟨fun r hr => ⟨hwf.statusIff r hr, hwf.holderHeld r hr⟩, hwf.heldBack⟩

/-- Allocation consistency only depends on the processes and resources. -/
theorem allocConsistent_congr (s s' : EngineState)
    (hp : s'.processes = s.processes) (hr : s'.resources = s.resources)
    (h : AllocConsistent s) : AllocConsistent s' := by
  rw [AllocConsistent, hp, hr]
  exact h

/-- Case analysis for the releasing holder's update. -/
theorem relProc_cases (pid rid : String) (q : Process) :
    (q.id = pid ∧ relProc pid rid q = { q with held := q.held.filter (fun x => x != rid) }) ∨
    (q.id ≠ pid ∧ relProc pid rid q = q) := by
  by_cases hc : q.id = pid
  · exact Or.inl ⟨hc, by simp [relProc, hc]⟩
  · exact Or.inr ⟨hc, by simp [relProc, hc]⟩

/-- The releasing update preserves ids. -/
theorem relProc_id (pid rid : String) (q : Process) : (relProc pid rid q).id = q.id := by
  rcases relProc_cases pid rid q with ⟨_, h⟩ | ⟨_, h⟩ <;> rw [h]

/-- Case analysis for the grant-to-head-waiter update. -/
theorem relGrantProc_cases (pid rid h : String) (hph : pid ≠ h) (q : Process) :
    (q.id = pid ∧ q.id ≠ h ∧
      relGrantProc pid rid h q = { q with held := q.held.filter (fun x => x != rid) }) ∨
    (q.id = h ∧ q.id ≠ pid ∧
      relGrantProc pid rid h q
        = { q with held := q.held ++ [rid], waitingFor := q.waitingFor.filter (fun x => x != rid) }) ∨
    (q.id ≠ pid ∧ q.id ≠ h ∧ relGrantProc pid rid h q = q) := by
  by_cases hc : q.id = pid
  · refine Or.inl ⟨hc, by rw [hc]; exact hph, ?_⟩
    have h1 : relProc pid rid q = { q with held := q.held.filter (fun x => x != rid) } := by
      simp [relProc, hc]
    simp only [relGrantProc, h1]
    rw [if_neg (by simp [hc, hph])]
  · by_cases hc2 : q.id = h
    · refine Or.inr (Or.inl ⟨hc2, hc, ?_⟩)
      have h1 : relProc pid rid q = q := by simp [relProc, hc]
      simp only [relGrantProc, h1]
      rw [if_pos (by simp [hc2])]
    · exact Or.inr (Or.inr ⟨hc, hc2, by simp [relGrantProc, relProc, hc, hc2]⟩)

/-- The grant-to-waiter update preserves ids. -/
theorem relGrantProc_id (pid rid h : String) (q : Process) :
    (relGrantProc pid rid h q).id = q.id := by
  rw [relGrantProc]
  split
  · exact relProc_id pid rid q
  · exact relProc_id pid rid q

/-- Case analysis for the released resource's update with no waiters. -/
theorem relResNil_cases (rid : String) (x : Resource) :
    (x.id = rid ∧ relResNil rid x = { x with status := RStatus.available, heldBy := none }) ∨
    (x.id ≠ rid ∧ relResNil rid x = x) := by
  by_cases hc : x.id = rid
  · exact Or.inl ⟨hc, by simp [relResNil, hc]⟩
  · exact Or.inr ⟨hc, by simp [relResNil, hc]⟩

/-- The no-waiters resource update preserves ids. -/
theorem relResNil_id (rid : String) (x : Resource) : (relResNil rid x).id = x.id := by
  rcases relResNil_cases rid x with ⟨_, h⟩ | ⟨_, h⟩ <;> rw [h]

/-- Case analysis for the released resource's update when granting the head
waiter. -/
theorem relResCons_cases (rid h : String) (t : List String) (x : Resource) :
    (x.id = rid ∧ relResCons rid h t x = { x with heldBy := some h, waitQueue := t }) ∨
    (x.id ≠ rid ∧ relResCons rid h t x = x) := by
  by_cases hc : x.id = rid
  · exact Or.inl ⟨hc, by simp [relResCons, hc]⟩
  · exact Or.inr ⟨hc, by simp [relResCons, hc]⟩

/-- The grant-to-waiter resource update preserves ids. -/
theorem relResCons_id (rid h : String) (t : List String) (x : Resource) :
    (relResCons rid h t x).id = x.id := by
  rcases relResCons_cases rid h t x with ⟨_, hh⟩ | ⟨_, hh⟩ <;> rw [hh]

/-- Releasing a resource with an empty wait queue preserves every
data-model invariant. -/
theorem release_WF_nil (s : EngineState) (pid rid : String) (hwf : WF s)
    (r : Resource) (hrmem : r ∈ s.resources) (hrid : r.id = rid)
    (hold : r.heldBy = some pid) (hq : r.waitQueue = []) :
    WF { s with
      processes := s.processes.map (relProc pid rid),
      resources := s.resources.map (relResNil rid) } := by
  have hures : ∀ x ∈ s.resources, x.id = rid → x = r := fun x hx hxid =>
    unique_of_nodup_ids (fun rr => rr.id) s.resources hwf.resNodup x r hx hrmem
      (by show x.id = r.id; rw [hxid, hrid])
  refine ⟨?_, ?_, ?_, ?_, ?_, ?_, ?_, ?_, ?_, ?_, ?_, ?_, ?_⟩
  · -- procNodup
    show ((s.processes.map (relProc pid rid)).map (fun p => p.id)).Nodup
    rw [map_comp_eq _ _ _ (relProc_id pid rid)]
    exact hwf.procNodup
  · -- resNodup
    show ((s.resources.map (relResNil rid)).map (fun x => x.id)).Nodup
    rw [map_comp_eq _ _ _ (relResNil_id rid)]
    exact hwf.resNodup
  · -- statusIff
    intro x' hx'
    obtain ⟨x, hxm, rfl⟩ := List.mem_map.mp hx'
    rcases relResNil_cases rid x with ⟨hxid, heqx⟩ | ⟨hxid, heqx⟩ <;> rw [heqx]
    · simp
    · exact hwf.statusIff x hxm
  · -- holderHeld
    intro x' hx'
    obtain ⟨x, hxm, rfl⟩ := List.mem_map.mp hx'
    intro h2 hh2
    rcases relResNil_cases rid x with ⟨hxid, heqx⟩ | ⟨hxid, heqx⟩
    · rw [heqx] at hh2
      exact Option.noConfusion hh2
    · rw [heqx] at hh2 ⊢
      obtain ⟨p, hpm, hpid, hpheld⟩ := hwf.holderHeld x hxm h2 hh2
      refine ⟨relProc pid rid p, List.mem_map.mpr ⟨p, hpm, rfl⟩, ?_, ?_⟩
      · rw [relProc_id]; exact hpid
      · rcases relProc_cases pid rid p with ⟨hpp, heqp⟩ | ⟨hpp, heqp⟩ <;> rw [heqp]
        · exact List.mem_filter.mpr ⟨hpheld, by simp [hxid]⟩
        · exact hpheld
  · -- heldBack
    intro q' hq'
    obtain ⟨q, hqm, rfl⟩ := List.mem_map.mp hq'
    intro x hxh
    rcases relProc_cases pid rid q with ⟨hqp, heq⟩ | ⟨hqp, heq⟩ <;> rw [heq] at hxh ⊢
    · obtain ⟨hxq, hne⟩ := List.mem_filter.mp hxh
      have hxr : x ≠ rid := by simpa using hne
      obtain ⟨r3, hr3m, hr3id, hr3h⟩ := hwf.heldBack q hqm x hxq
      refine ⟨relResNil rid r3, List.mem_map.mpr ⟨r3, hr3m, rfl⟩, ?_, ?_⟩
      · rw [relResNil_id]; exact hr3id
      · rcases relResNil_cases rid r3 with ⟨h3id, heq3⟩ | ⟨h3id, heq3⟩
        · exact absurd (hr3id ▸ h3id) hxr
        · rw [heq3]; exact hr3h
    · obtain ⟨r3, hr3m, hr3id, hr3h⟩ := hwf.heldBack q hqm x hxh
      by_cases hxr : x = rid
      · exfalso
        have : r3 = r := hures r3 hr3m (by rw [hr3id, hxr])
        rw [this, hold] at hr3h
        have : pid = q.id := by simpa using hr3h
        exact hqp this.symm
      · refine ⟨relResNil rid r3, List.mem_map.mpr ⟨r3, hr3m, rfl⟩, ?_, ?_⟩
        · rw [relResNil_id]; exact hr3id
        · rcases relResNil_cases rid r3 with ⟨h3id, heq3⟩ | ⟨h3id, heq3⟩
          · exact absurd (hr3id ▸ h3id) hxr
          · rw [heq3]; exact hr3h
  · -- waitFwd
    intro q' hq'
    obtain ⟨q, hqm, rfl⟩ := List.mem_map.mp hq'
    intro x hxw
    have hxw2 : x ∈ q.waitingFor := by
      rcases relProc_cases pid rid q with ⟨_, heq⟩ | ⟨_, heq⟩ <;> rw [heq] at hxw <;> exact hxw
    obtain ⟨r4, hr4m, hr4id, hr4q⟩ := hwf.waitFwd q hqm x hxw2
    by_cases hxr : x = rid
    · exfalso
      have : r4 = r := hures r4 hr4m (by rw [hr4id, hxr])
      rw [this, hq] at hr4q
      simp at hr4q
    · refine ⟨relResNil rid r4, List.mem_map.mpr ⟨r4, hr4m, rfl⟩, ?_, ?_⟩
      · rw [relResNil_id]; exact hr4id
      · rcases relResNil_cases rid r4 with ⟨h4id, heq4⟩ | ⟨h4id, heq4⟩
        · exact absurd (hr4id ▸ h4id) hxr
        · rw [heq4, relProc_id]; exact hr4q
  · -- waitBack
    intro x' hx'
    obtain ⟨x, hxm, rfl⟩ := List.mem_map.mp hx'
    intro q0 hq0
    rcases relResNil_cases rid x with ⟨hxid, heqx⟩ | ⟨hxid, heqx⟩
    · exfalso
      rw [heqx] at hq0
      have hq0x : q0 ∈ x.waitQueue := hq0
      have hxr : x = r := hures x hxm hxid
      rw [hxr, hq] at hq0x
      simp at hq0x
    · rw [heqx] at hq0 ⊢
      obtain ⟨p5, hp5m, hp5id, hp5w⟩ := hwf.waitBack x hxm q0 hq0
      refine ⟨relProc pid rid p5, List.mem_map.mpr ⟨p5, hp5m, rfl⟩, ?_, ?_⟩
      · rw [relProc_id]; exact hp5id
      · rcases relProc_cases pid rid p5 with ⟨_, heq5⟩ | ⟨_, heq5⟩ <;> rw [heq5] <;> exact hp5w
  · -- holderNotWait
    intro x' hx'
    obtain ⟨x, hxm, rfl⟩ := List.mem_map.mp hx'
    intro h2 hh2
    rcases relResNil_cases rid x with ⟨hxid, heqx⟩ | ⟨hxid, heqx⟩
    · rw [heqx] at hh2
      exact Option.noConfusion hh2
    · rw [heqx] at hh2 ⊢
      exact hwf.holderNotWait x hxm h2 hh2
  · -- heldWaitDisj
    intro q' hq'
    obtain ⟨q, hqm, rfl⟩ := List.mem_map.mp hq'
    intro x hxh
    rcases relProc_cases pid rid q with ⟨_, heq⟩ | ⟨_, heq⟩ <;> rw [heq] at hxh ⊢
    · exact hwf.heldWaitDisj q hqm x (List.mem_filter.mp hxh).1
    · exact hwf.heldWaitDisj q hqm x hxh
  · -- availNoQueue
    intro x' hx'
    obtain ⟨x, hxm, rfl⟩ := List.mem_map.mp hx'
    intro hnone
    rcases relResNil_cases rid x with ⟨hxid, heqx⟩ | ⟨hxid, heqx⟩ <;> rw [heqx] at hnone ⊢
    · show x.waitQueue = []
      rw [hures x hxm hxid]
      exact hq
    · exact hwf.availNoQueue x hxm hnone
  · -- heldNodup
    intro q' hq'
    obtain ⟨q, hqm, rfl⟩ := List.mem_map.mp hq'
    rcases relProc_cases pid rid q with ⟨_, heq⟩ | ⟨_, heq⟩ <;> rw [heq]
    · exact (hwf.heldNodup q hqm).filter _
    · exact hwf.heldNodup q hqm
  · -- waitForNodup
    intro q' hq'
    obtain ⟨q, hqm, rfl⟩ := List.mem_map.mp hq'
    rcases relProc_cases pid rid q with ⟨_, heq⟩ | ⟨_, heq⟩ <;> rw [heq] <;>
      exact hwf.waitForNodup q hqm
  · -- queueNodup
    intro x' hx'
    obtain ⟨x, hxm, rfl⟩ := List.mem_map.mp hx'
    rcases relResNil_cases rid x with ⟨_, heqx⟩ | ⟨_, heqx⟩ <;> rw [heqx] <;>
      exact hwf.queueNodup x hxm

/-- Releasing a resource and granting it to the popped head waiter
preserves every data-model invariant. -/
theorem release_WF_cons (s : EngineState) (pid rid h : String) (t : List String) (hwf : WF s)
    (r : Resource) (hrmem : r ∈ s.resources) (hrid : r.id = rid)
    (hold : r.heldBy = some pid) (hq : r.waitQueue = h :: t) :
    WF { s with
      processes := s.processes.map (relGrantProc pid rid h),
      resources := s.resources.map (relResCons rid h t) } := by
  have hures : ∀ x ∈ s.resources, x.id = rid → x = r := fun x hx hxid =>
    unique_of_nodup_ids (fun rr => rr.id) s.resources hwf.resNodup x r hx hrmem
      (by show x.id = r.id; rw [hxid, hrid])
  have hupr : ∀ a ∈ s.processes, ∀ b ∈ s.processes, a.id = b.id → a = b := fun a ha b hb hab =>
    unique_of_nodup_ids (fun pp => pp.id) s.processes hwf.procNodup a b ha hb hab
  have hhq : h ∈ r.waitQueue := by rw [hq]; exact List.mem_cons_self h t
  have hph : pid ≠ h := fun he =>
    hwf.holderNotWait r hrmem pid hold (by rw [he]; exact hhq)
  obtain ⟨ph, hphm, hphid, hphw⟩ := hwf.waitBack r hrmem h hhq
  rw [hrid] at hphw
  have hqnd : (h :: t).Nodup := by rw [← hq]; exact hwf.queueNodup r hrmem
  have hht : h ∉ t := (List.nodup_cons.mp hqnd).1
  have htnd : t.Nodup := (List.nodup_cons.mp hqnd).2
  refine ⟨?_, ?_, ?_, ?_, ?_, ?_, ?_, ?_, ?_, ?_, ?_, ?_, ?_⟩
  · -- procNodup
    show ((s.processes.map (relGrantProc pid rid h)).map (fun p => p.id)).Nodup
    rw [map_comp_eq _ _ _ (relGrantProc_id pid rid h)]
    exact hwf.procNodup
  · -- resNodup
    show ((s.resources.map (relResCons rid h t)).map (fun x => x.id)).Nodup
    rw [map_comp_eq _ _ _ (relResCons_id rid h t)]
    exact hwf.resNodup
  · -- statusIff
    intro x' hx'
    obtain ⟨x, hxm, rfl⟩ := List.mem_map.mp hx'
    rcases relResCons_cases rid h t x with ⟨hxid, heqx⟩ | ⟨hxid, heqx⟩ <;> rw [heqx]
    · have hxr : x = r := hures x hxm hxid
      have hst : x.status = RStatus.allocated :=
        (hwf.statusIff x hxm).mpr (by rw [hxr, hold]; simp)
      simp [hst]
    · exact hwf.statusIff x hxm
  · -- holderHeld
    intro x' hx'
    obtain ⟨x, hxm, rfl⟩ := List.mem_map.mp hx'
    intro h2 hh2
    rcases relResCons_cases rid h t x with ⟨hxid, heqx⟩ | ⟨hxid, heqx⟩
    · rw [heqx] at hh2 ⊢
      have hhh : h = h2 := by simpa using hh2
      refine ⟨relGrantProc pid rid h ph, List.mem_map.mpr ⟨ph, hphm, rfl⟩, ?_, ?_⟩
      · rw [relGrantProc_id, hphid]; exact hhh
      · rcases relGrantProc_cases pid rid h hph ph with ⟨hp1, _, _⟩ | ⟨_, _, heqp⟩ | ⟨_, hp2, _⟩
        · exact absurd (hp1.symm.trans hphid) hph
        · rw [heqp]
          show x.id ∈ ph.held ++ [rid]
          rw [hxid]
          exact List.mem_append.mpr (Or.inr (by simp))
        · exact absurd hphid hp2
    · rw [heqx] at hh2 ⊢
      obtain ⟨p, hpm, hpid, hpheld⟩ := hwf.holderHeld x hxm h2 hh2
      refine ⟨relGrantProc pid rid h p, List.mem_map.mpr ⟨p, hpm, rfl⟩, ?_, ?_⟩
      · rw [relGrantProc_id]; exact hpid
      · rcases relGrantProc_cases pid rid h hph p with ⟨_, _, heqp⟩ | ⟨_, _, heqp⟩ | ⟨_, _, heqp⟩ <;>
          rw [heqp]
        · exact List.mem_filter.mpr ⟨hpheld, by simp [hxid]⟩
        · exact List.mem_append.mpr (Or.inl hpheld)
        · exact hpheld
  · -- heldBack
    intro q' hq'
    obtain ⟨q, hqm, rfl⟩ := List.mem_map.mp hq'
    intro x hxh
    rcases relGrantProc_cases pid rid h hph q with ⟨hq1, hq2, heq⟩ | ⟨hq1, hq2, heq⟩ | ⟨hq1, hq2, heq⟩ <;>
      rw [heq] at hxh ⊢
    · obtain ⟨hxq, hne⟩ := List.mem_filter.mp hxh
      have hxr : x ≠ rid := by simpa using hne
      obtain ⟨r3, hr3m, hr3id, hr3h⟩ := hwf.heldBack q hqm x hxq
      refine ⟨relResCons rid h t r3, List.mem_map.mpr ⟨r3, hr3m, rfl⟩, ?_, ?_⟩
      · rw [relResCons_id]; exact hr3id
      · rcases relResCons_cases rid h t r3 with ⟨h3id, heq3⟩ | ⟨h3id, heq3⟩
        · exact absurd (hr3id ▸ h3id) hxr
        · rw [heq3]; exact hr3h
    · rcases List.mem_append.mp hxh with hx1 | hx1
      · obtain ⟨r3, hr3m, hr3id, hr3h⟩ := hwf.heldBack q hqm x hx1
        by_cases hxr : x = rid
        · exfalso
          have h3r : r3 = r := hures r3 hr3m (by rw [hr3id, hxr])
          rw [h3r, hold] at hr3h
          have hpq : pid = q.id := by simpa using hr3h
          exact hph (hpq.trans hq1)
        · refine ⟨relResCons rid h t r3, List.mem_map.mpr ⟨r3, hr3m, rfl⟩, ?_, ?_⟩
          · rw [relResCons_id]; exact hr3id
          · rcases relResCons_cases rid h t r3 with ⟨h3id, heq3⟩ | ⟨h3id, heq3⟩
            · exact absurd (hr3id ▸ h3id) hxr
            · rw [heq3]; exact hr3h
      · have hx2 : x = rid := by simpa using hx1
        refine ⟨relResCons rid h t r, List.mem_map.mpr ⟨r, hrmem, rfl⟩, ?_, ?_⟩
        · rcases relResCons_cases rid h t r with ⟨_, heq3⟩ | ⟨h3id, _⟩
          · rw [heq3]
            show r.id = x
            rw [hrid, hx2]
          · exact absurd hrid h3id
        · rcases relResCons_cases rid h t r with ⟨_, heq3⟩ | ⟨h3id, _⟩
          · rw [heq3]
            show some h = some q.id
            rw [hq1]
          · exact absurd hrid h3id
    · obtain ⟨r3, hr3m, hr3id, hr3h⟩ := hwf.heldBack q hqm x hxh
      by_cases hxr : x = rid
      · exfalso
        have h3r : r3 = r := hures r3 hr3m (by rw [hr3id, hxr])
        rw [h3r, hold] at hr3h
        have hpq : pid = q.id := by simpa using hr3h
        exact hq1 hpq.symm
      · refine ⟨relResCons rid h t r3, List.mem_map.mpr ⟨r3, hr3m, rfl⟩, ?_, ?_⟩
        · rw [relResCons_id]; exact hr3id
        · rcases relResCons_cases rid h t r3 with ⟨h3id, heq3⟩ | ⟨h3id, heq3⟩
          · exact absurd (hr3id ▸ h3id) hxr
          · rw [heq3]; exact hr3h
  · -- waitFwd
    intro q' hq'
    obtain ⟨q, hqm, rfl⟩ := List.mem_map.mp hq'
    intro x hxw
    rcases relGrantProc_cases pid rid h hph q with ⟨hq1, hq2, heq⟩ | ⟨hq1, hq2, heq⟩ | ⟨hq1, hq2, heq⟩ <;>
      rw [heq] at hxw ⊢
    · obtain ⟨r4, hr4m, hr4id, hr4q⟩ := hwf.waitFwd q hqm x hxw
      by_cases hxr : x = rid
      · exfalso
        have h4r : r4 = r := hures r4 hr4m (by rw [hr4id, hxr])
        rw [h4r] at hr4q
        have hpw : pid ∈ r.waitQueue := by rw [← hq1]; exact hr4q
        exact hwf.holderNotWait r hrmem pid hold hpw
      · refine ⟨relResCons rid h t r4, List.mem_map.mpr ⟨r4, hr4m, rfl⟩, ?_, ?_⟩
        · rw [relResCons_id]; exact hr4id
        · rcases relResCons_cases rid h t r4 with ⟨h4id, heq4⟩ | ⟨h4id, heq4⟩
          · exact absurd (hr4id ▸ h4id) hxr
          · rw [heq4]; exact hr4q
    · obtain ⟨hxw2, hne⟩ := List.mem_filter.mp hxw
      have hxr : x ≠ rid := by simpa using hne
      obtain ⟨r4, hr4m, hr4id, hr4q⟩ := hwf.waitFwd q hqm x hxw2
      refine ⟨relResCons rid h t r4, List.mem_map.mpr ⟨r4, hr4m, rfl⟩, ?_, ?_⟩
      · rw [relResCons_id]; exact hr4id
      · rcases relResCons_cases rid h t r4 with ⟨h4id, heq4⟩ | ⟨h4id, heq4⟩
        · exact absurd (hr4id ▸ h4id) hxr
        · rw [heq4]; exact hr4q
    · obtain ⟨r4, hr4m, hr4id, hr4q⟩ := hwf.waitFwd q hqm x hxw
      by_cases hxr : x = rid
      · have h4r : r4 = r := hures r4 hr4m (by rw [hr4id, hxr])
        rw [h4r, hq] at hr4q
        have hqt : q.id ∈ t := by
          rcases List.mem_cons.mp hr4q with h5 | h5
          · exact absurd h5 hq2
          · exact h5
        refine ⟨relResCons rid h t r, List.mem_map.mpr ⟨r, hrmem, rfl⟩, ?_, ?_⟩
        · rcases relResCons_cases rid h t r with ⟨_, heq4⟩ | ⟨h4id, _⟩
          · rw [heq4]
            show r.id = x
            rw [hrid, hxr]
          · exact absurd hrid h4id
        · rcases relResCons_cases rid h t r with ⟨_, heq4⟩ | ⟨h4id, _⟩
          · rw [heq4]; exact hqt
          · exact absurd hrid h4id
      · refine ⟨relResCons rid h t r4, List.mem_map.mpr ⟨r4, hr4m, rfl⟩, ?_, ?_⟩
        · rw [relResCons_id]; exact hr4id
        · rcases relResCons_cases rid h t r4 with ⟨h4id, heq4⟩ | ⟨h4id, heq4⟩
          · exact absurd (hr4id ▸ h4id) hxr
          · rw [heq4]; exact hr4q
  · -- waitBack
    intro x' hx'
    obtain ⟨x, hxm, rfl⟩ := List.mem_map.mp hx'
    intro q0 hq0
    rcases relResCons_cases rid h t x with ⟨hxid, heqx⟩ | ⟨hxid, heqx⟩
    · rw [heqx] at hq0 ⊢
      have hq0t : q0 ∈ t := hq0
      have hxr : x = r := hures x hxm hxid
      have hq0r : q0 ∈ r.waitQueue := by rw [hq]; exact List.mem_cons_of_mem h hq0t
      obtain ⟨p5, hp5m, hp5id, hp5w⟩ := hwf.waitBack r hrmem q0 hq0r
      have hq0h : q0 ≠ h := fun he => hht (by rw [← he]; exact hq0t)
      have hq0p : q0 ≠ pid := fun he =>
        hwf.holderNotWait r hrmem pid hold (by rw [← he]; exact hq0r)
      refine ⟨relGrantProc pid rid h p5, List.mem_map.mpr ⟨p5, hp5m, rfl⟩, ?_, ?_⟩
      · rw [relGrantProc_id]; exact hp5id
      · rcases relGrantProc_cases pid rid h hph p5 with ⟨hp1, _, _⟩ | ⟨hp1, _, _⟩ | ⟨_, _, heqp⟩
        · exact absurd (hp1.symm.trans hp5id).symm hq0p
        · exact absurd (hp1.symm.trans hp5id).symm hq0h
        · rw [heqp]
          show x.id ∈ p5.waitingFor
          rw [hxr]
          exact hp5w
    · rw [heqx] at hq0 ⊢
      obtain ⟨p5, hp5m, hp5id, hp5w⟩ := hwf.waitBack x hxm q0 hq0
      refine ⟨relGrantProc pid rid h p5, List.mem_map.mpr ⟨p5, hp5m, rfl⟩, ?_, ?_⟩
      · rw [relGrantProc_id]; exact hp5id
      · rcases relGrantProc_cases pid rid h hph p5 with ⟨_, _, heqp⟩ | ⟨_, _, heqp⟩ | ⟨_, _, heqp⟩ <;>
          rw [heqp]
        · exact hp5w
        · exact List.mem_filter.mpr ⟨hp5w, by simp [hxid]⟩
        · exact hp5w
  · -- holderNotWait
    intro x' hx'
    obtain ⟨x, hxm, rfl⟩ := List.mem_map.mp hx'
    intro h2 hh2
    rcases relResCons_cases rid h t x with ⟨hxid, heqx⟩ | ⟨hxid, heqx⟩
    · rw [heqx] at hh2 ⊢
      have hhh : h = h2 := by simpa using hh2
      show h2 ∉ t
      rw [← hhh]
      exact hht
    · rw [heqx] at hh2 ⊢
      exact hwf.holderNotWait x hxm h2 hh2
  · -- heldWaitDisj
    intro q' hq'
    obtain ⟨q, hqm, rfl⟩ := List.mem_map.mp hq'
    intro x hxh
    rcases relGrantProc_cases pid rid h hph q with ⟨hq1, hq2, heq⟩ | ⟨hq1, hq2, heq⟩ | ⟨hq1, hq2, heq⟩ <;>
      rw [heq] at hxh ⊢
    · exact hwf.heldWaitDisj q hqm x (List.mem_filter.mp hxh).1
    · intro hxw
      obtain ⟨hxw2, hne⟩ := List.mem_filter.mp hxw
      have hxr : x ≠ rid := by simpa using hne
      rcases List.mem_append.mp hxh with hx1 | hx1
      · exact hwf.heldWaitDisj q hqm x hx1 hxw2
      · exact hxr (by simpa using hx1)
    · exact hwf.heldWaitDisj q hqm x hxh
  · -- availNoQueue
    intro x' hx'
    obtain ⟨x, hxm, rfl⟩ := List.mem_map.mp hx'
    intro hnone
    rcases relResCons_cases rid h t x with ⟨hxid, heqx⟩ | ⟨hxid, heqx⟩
    · rw [heqx] at hnone
      exact Option.noConfusion hnone
    · rw [heqx] at hnone ⊢
      exact hwf.availNoQueue x hxm hnone
  · -- heldNodup
    intro q' hq'
    obtain ⟨q, hqm, rfl⟩ := List.mem_map.mp hq'
    rcases relGrantProc_cases pid rid h hph q with ⟨hq1, hq2, heq⟩ | ⟨hq1, hq2, heq⟩ | ⟨hq1, hq2, heq⟩ <;>
      rw [heq]
    · exact (hwf.heldNodup q hqm).filter _
    · have hqph : q = ph := hupr q hqm ph hphm (by rw [hq1, hphid])
      have hrw : rid ∈ q.waitingFor := by rw [hqph]; exact hphw
      have hrh : rid ∉ q.held := fun hmem => hwf.heldWaitDisj q hqm rid hmem hrw
      rw [List.nodup_append]
      refine ⟨hwf.heldNodup q hqm, List.nodup_singleton rid, ?_⟩
      intro a ha hb
      simp at hb
      rw [hb] at ha
      exact hrh ha
    · exact hwf.heldNodup q hqm
  · -- waitForNodup
    intro q' hq'
    obtain ⟨q, hqm, rfl⟩ := List.mem_map.mp hq'
    rcases relGrantProc_cases pid rid h hph q with ⟨_, _, heq⟩ | ⟨_, _, heq⟩ | ⟨_, _, heq⟩ <;> rw [heq]
    · exact hwf.waitForNodup q hqm
    · exact (hwf.waitForNodup q hqm).filter _
    · exact hwf.waitForNodup q hqm
  · -- queueNodup
    intro x' hx'
    obtain ⟨x, hxm, rfl⟩ := List.mem_map.mp hx'
    rcases relResCons_cases rid h t x with ⟨_, heqx⟩ | ⟨_, heqx⟩ <;> rw [heqx]
    · exact htnd
    · exact hwf.queueNodup x hxm

/-- Case analysis for the granted process's update. -/
theorem grantProc_cases (pid rid : String) (q : Process) :
    (q.id = pid ∧ grantProc pid rid q = { q with held := q.held ++ [rid] }) ∨
    (q.id ≠ pid ∧ grantProc pid rid q = q) := by
  by_cases hc : q.id = pid
  · exact Or.inl ⟨hc, by simp [grantProc, hc]⟩
  · exact Or.inr ⟨hc, by simp [grantProc, hc]⟩

/-- The granted process's update preserves ids. -/
theorem grantProc_id (pid rid : String) (q : Process) : (grantProc pid rid q).id = q.id := by
  rcases grantProc_cases pid rid q with ⟨_, h⟩ | ⟨_, h⟩ <;> rw [h]

/-- Case analysis for the granted resource's update. -/
theorem grantRes_cases (pid rid : String) (x : Resource) :
    (x.id = rid ∧ grantRes pid rid x
        = { x with status := RStatus.allocated, heldBy := some pid }) ∨
    (x.id ≠ rid ∧ grantRes pid rid x = x) := by
  by_cases hc : x.id = rid
  · exact Or.inl ⟨hc, by simp [grantRes, hc]⟩
  · exact Or.inr ⟨hc, by simp [grantRes, hc]⟩

/-- The granted resource's update preserves ids. -/
theorem grantRes_id (pid rid : String) (x : Resource) : (grantRes pid rid x).id = x.id := by
  rcases grantRes_cases pid rid x with ⟨_, h⟩ | ⟨_, h⟩ <;> rw [h]

/-- The wait-edge process update keeps id and held. -/
theorem waitProc_parts (pid rid : String) (q : Process) :
    (waitProc pid rid q).id = q.id ∧ (waitProc pid rid q).held = q.held := by
  by_cases hc : q.id = pid <;> simp [waitProc, hc]

/-- The wait-edge resource update keeps id, status and holder. -/
theorem waitRes_parts (pid rid : String) (x : Resource) :
    (waitRes pid rid x).id = x.id ∧ (waitRes pid rid x).status = x.status ∧
    (waitRes pid rid x).heldBy = x.heldBy := by
  by_cases hc : x.id = rid <;> simp [waitRes, hc]

/-- Release preserves the full invariant bundle. -/
theorem releaseResource_WF (s : EngineState) (pid rid : String) (hwf : WF s) :
    WF (releaseResource s pid rid) := by
  cases hfr : findResource s rid with
  | none =>
    have heq : releaseResource s pid rid = s := by simp [releaseResource, hfr]
    rw [heq]
    exact hwf
  | some r =>
    have hrmem : r ∈ s.resources := List.mem_of_find?_eq_some hfr
    have hrid : r.id = rid := by simpa using List.find?_some hfr
    by_cases hold : r.heldBy = some pid
    · cases hq : r.waitQueue with
      | nil =>
        have heq : releaseResource s pid rid = { s with
            processes := s.processes.map (relProc pid rid),
            resources := s.resources.map (relResNil rid) } := by
          simp [releaseResource, hfr, hold, hq]
        rw [heq]
        exact release_WF_nil s pid rid hwf r hrmem hrid hold hq
      | cons h t =>
        have heq : releaseResource s pid rid = { s with
            processes := s.processes.map (relGrantProc pid rid h),
            resources := s.resources.map (relResCons rid h t) } := by
          simp [releaseResource, hfr, hold, hq]
        rw [heq]
        exact release_WF_cons s pid rid h t hwf r hrmem hrid hold hq
    · have heq : releaseResource s pid rid = s := by simp [releaseResource, hfr, hold]
      rw [heq]
      exact hwf

/-- Folding releases preserves the invariant bundle. -/
theorem fold_release_WF (pid : String) :
    ∀ (l : List String) (s : EngineState), WF s →
      WF (l.foldl (fun st x => releaseResource st pid x) s) := by
  intro l
  induction l with
  | nil => intro s hwf; exact hwf
  | cons a ls ih =>
    intro s hwf
    rw [List.foldl_cons]
    exact ih (releaseResource s pid a) (releaseResource_WF s pid a hwf)

/-- One release removes exactly the released resource from the holder's
held set. -/
theorem release_step_held (s : EngineState) (pid a : String) (pv : Process) (hwf : WF s)
    (hfp : findProcess s pid = some pv) (hida : pv.id = pid) (hhead : a ∈ pv.held) :
    ∃ pv1, findProcess (releaseResource s pid a) pid = some pv1 ∧
      pv1.id = pid ∧ pv1.held = pv.held.filter (fun x => x != a) := by
  have hpvm : pv ∈ s.processes := List.mem_of_find?_eq_some hfp
  obtain ⟨ra, hram, hraid, hrah⟩ := hwf.heldBack pv hpvm a hhead
  rw [hida] at hrah
  have hfra : findResource s a = some ra := by
    show s.resources.find? (fun r => r.id == a) = some ra
    exact find_eq_of_nodup (fun rr => rr.id) s.resources hwf.resNodup ra hram a hraid
  have hfp2 : s.processes.find? (fun p => p.id == pid) = some pv := hfp
  cases hq : ra.waitQueue with
  | nil =>
    have heq : releaseResource s pid a = { s with
        processes := s.processes.map (relProc pid a),
        resources := s.resources.map (relResNil a) } := by
      simp [releaseResource, hfra, hrah, hq]
    rw [heq]
    refine ⟨relProc pid a pv, ?_, ?_, ?_⟩
    · show (s.processes.map (relProc pid a)).find? (fun p => p.id == pid) = some (relProc pid a pv)
      rw [find_map _ _ _ (fun q => by rw [relProc_id]), hfp2]
      rfl
    · rw [relProc_id]; exact hida
    · rcases relProc_cases pid a pv with ⟨_, heqp⟩ | ⟨hne, heqp⟩
      · rw [heqp]
      · exact absurd hida hne
  | cons h t =>
    have hph : pid ≠ h := fun he =>
      hwf.holderNotWait ra hram pid hrah (by rw [he, hq]; exact List.mem_cons_self h t)
    have heq : releaseResource s pid a = { s with
        processes := s.processes.map (relGrantProc pid a h),
        resources := s.resources.map (relResCons a h t) } := by
      simp [releaseResource, hfra, hrah, hq]
    rw [heq]
    refine ⟨relGrantProc pid a h pv, ?_, ?_, ?_⟩
    · show (s.processes.map (relGrantProc pid a h)).find? (fun p => p.id == pid)
          = some (relGrantProc pid a h pv)
      rw [find_map _ _ _ (fun q => by rw [relGrantProc_id]), hfp2]
      rfl
    · rw [relGrantProc_id]; exact hida
    · rcases relGrantProc_cases pid a h hph pv with ⟨_, _, heqp⟩ | ⟨hp1, _, _⟩ | ⟨hp1, _, _⟩
      · rw [heqp]
      · exact absurd (hida.symm.trans hp1) hph
      · exact absurd hida hp1

/-- After releasing everything in its held list, the victim holds
nothing. -/
theorem fold_release_heldEmpty (pid : String) :
    ∀ (l : List String) (s : EngineState) (pv : Process), WF s →
      findProcess s pid = some pv → pv.id = pid → pv.held = l →
      ∃ pv2, findProcess (l.foldl (fun st x => releaseResource st pid x) s) pid = some pv2 ∧
        pv2.held = [] := by
  intro l
  induction l with
  | nil => intro s pv _ hfp _ hheld; exact ⟨pv, hfp, hheld⟩
  | cons a ls ih =>
    intro s pv hwf hfp hida hheld
    rw [List.foldl_cons]
    have hhead : a ∈ pv.held := by rw [hheld]; simp
    obtain ⟨pv1, hfp1, hid1, hheld1⟩ := release_step_held s pid a pv hwf hfp hida hhead
    have hnd : pv.held.Nodup := hwf.heldNodup pv (List.mem_of_find?_eq_some hfp)
    have hheld1' : pv1.held = ls := by
      rw [hheld1, hheld]
      exact filter_cons_self (by rw [← hheld]; exact hnd)
    exact ih (releaseResource s pid a) pv1 (releaseResource_WF s pid a hwf) hfp1 hid1 hheld1'

/-- Removing a victim that holds nothing keeps allocation consistency. -/
theorem removeVictim_allocConsistent (s : EngineState) (vid : String) (hwf : WF s)
    (pv2 : Process) (hfp : findProcess s vid = some pv2) (hheld : pv2.held = []) :
    AllocConsistent (removeVictim s vid) := by
  have hpvm : pv2 ∈ s.processes := List.mem_of_find?_eq_some hfp
  have hpvid : pv2.id = vid := by simpa using List.find?_some hfp
  have hupr : ∀ a ∈ s.processes, ∀ b ∈ s.processes, a.id = b.id → a = b := fun a ha b hb hab =>
    unique_of_nodup_ids (fun pp => pp.id) s.processes hwf.procNodup a b ha hb hab
  refine ⟨?_, ?_⟩
  · intro x' hx'
    obtain ⟨x, hxm, rfl⟩ := List.mem_map.mp hx'
    refine ⟨hwf.statusIff x hxm, ?_⟩
    intro h2 hh2
    have hh2' : x.heldBy = some h2 := hh2
    obtain ⟨p, hpm, hpid, hpheld⟩ := hwf.holderHeld x hxm h2 hh2'
    have hpv : p.id ≠ vid := by
      intro he
      have hppv : p = pv2 := hupr p hpm pv2 hpvm (by rw [he, hpvid])
      rw [hppv, hheld] at hpheld
      simp at hpheld
    refine ⟨p, ?_, hpid, hpheld⟩
    exact List.mem_filter.mpr ⟨hpm, by simp [hpv]⟩
  · intro q' hq'
    obtain ⟨hqm, _⟩ := List.mem_filter.mp hq'
    intro x hxh
    obtain ⟨r3, hr3m, hr3id, hr3h⟩ := hwf.heldBack q' hqm x hxh
    refine ⟨{ r3 with waitQueue := r3.waitQueue.filter (fun y => y != vid) }, ?_, hr3id, hr3h⟩
    exact List.mem_map.mpr ⟨r3, hr3m, rfl⟩

/-- Granting an available resource keeps allocation consistency. -/
theorem grant_allocConsistent (s : EngineState) (pid rid : String) (hwf : WF s)
    (p : Process) (hfp : findProcess s pid = some p)
    (r : Resource) (hfr : findResource s rid = some r)
    (hb : r.heldBy = none) (h1 : rid ∉ p.held) :
    AllocConsistent (grantTo s pid rid) := by
  have hpm : p ∈ s.processes := List.mem_of_find?_eq_some hfp
  have hpid : p.id = pid := by simpa using List.find?_some hfp
  have hrm : r ∈ s.resources := List.mem_of_find?_eq_some hfr
  have hrid : r.id = rid := by simpa using List.find?_some hfr
  have hures : ∀ x ∈ s.resources, x.id = rid → x = r := fun x hx hxid =>
    unique_of_nodup_ids (fun rr => rr.id) s.resources hwf.resNodup x r hx hrm
      (by show x.id = r.id; rw [hxid, hrid])
  have hupr : ∀ a ∈ s.processes, ∀ b ∈ s.processes, a.id = b.id → a = b := fun a ha b hb2 hab =>
    unique_of_nodup_ids (fun pp => pp.id) s.processes hwf.procNodup a b ha hb2 hab
  refine ⟨?_, ?_⟩
  · intro x' hx'
    obtain ⟨x, hxm, rfl⟩ := List.mem_map.mp hx'
    rcases grantRes_cases pid rid x with ⟨hxid, heqx⟩ | ⟨hxid, heqx⟩ <;> rw [heqx]
    · constructor
      · simp
      · intro h2 hh2
        have hhh : pid = h2 := by simpa using hh2
        refine ⟨grantProc pid rid p, List.mem_map.mpr ⟨p, hpm, rfl⟩, ?_, ?_⟩
        · rw [grantProc_id, hpid]; exact hhh
        · rcases grantProc_cases pid rid p with ⟨_, heqp⟩ | ⟨hne, heqp⟩
          · rw [heqp]
            show x.id ∈ p.held ++ [rid]
            rw [hxid]
            exact List.mem_append.mpr (Or.inr (by simp))
          · exact absurd hpid hne
    · constructor
      · exact hwf.statusIff x hxm
      · intro h2 hh2
        obtain ⟨p2, hp2m, hp2id, hp2held⟩ := hwf.holderHeld x hxm h2 hh2
        refine ⟨grantProc pid rid p2, List.mem_map.mpr ⟨p2, hp2m, rfl⟩, ?_, ?_⟩
        · rw [grantProc_id]; exact hp2id
        · rcases grantProc_cases pid rid p2 with ⟨_, heqp⟩ | ⟨_, heqp⟩ <;> rw [heqp]
          · exact List.mem_append.mpr (Or.inl hp2held)
          · exact hp2held
  · intro q' hq'
    obtain ⟨q, hqm, rfl⟩ := List.mem_map.mp hq'
    intro x hxh
    rcases grantProc_cases pid rid q with ⟨hq1, heq⟩ | ⟨hq1, heq⟩ <;> rw [heq] at hxh ⊢
    · rcases List.mem_append.mp hxh with hx1 | hx1
      · have hqp : q = p := hupr q hqm p hpm (by rw [hq1, hpid])
        have hxr : x ≠ rid := by
          intro he
          rw [hqp] at hx1
          rw [he] at hx1
          exact h1 hx1
        obtain ⟨r3, hr3m, hr3id, hr3h⟩ := hwf.heldBack q hqm x hx1
        refine ⟨grantRes pid rid r3, List.mem_map.mpr ⟨r3, hr3m, rfl⟩, ?_, ?_⟩
        · rw [grantRes_id]; exact hr3id
        · rcases grantRes_cases pid rid r3 with ⟨h3id, heq3⟩ | ⟨h3id, heq3⟩
          · exact absurd (hr3id ▸ h3id) hxr
          · rw [heq3]; exact hr3h
      · have hx2 : x = rid := by simpa using hx1
        refine ⟨grantRes pid rid r, List.mem_map.mpr ⟨r, hrm, rfl⟩, ?_, ?_⟩
        · rcases grantRes_cases pid rid r with ⟨_, heq3⟩ | ⟨h3id, _⟩
          · rw [heq3]
            show r.id = x
            rw [hrid, hx2]
          · exact absurd hrid h3id
        · rcases grantRes_cases pid rid r with ⟨_, heq3⟩ | ⟨h3id, _⟩
          · rw [heq3]
            show some pid = some q.id
            rw [hq1]
          · exact absurd hrid h3id
    · obtain ⟨r3, hr3m, hr3id, hr3h⟩ := hwf.heldBack q hqm x hxh
      by_cases hxr : x = rid
      · exfalso
        have h3r : r3 = r := hures r3 hr3m (by rw [hr3id, hxr])
        rw [h3r, hb] at hr3h
        exact Option.noConfusion hr3h
      · refine ⟨grantRes pid rid r3, List.mem_map.mpr ⟨r3, hr3m, rfl⟩, ?_, ?_⟩
        · rw [grantRes_id]; exact hr3id
        · rcases grantRes_cases pid rid r3 with ⟨h3id, heq3⟩ | ⟨h3id, heq3⟩
          · exact absurd (hr3id ▸ h3id) hxr
          · rw [heq3]; exact hr3h

/-- Committing a wait edge does not touch allocation state. -/
theorem addWaitEdge_allocConsistent (s : EngineState) (pid rid : String)
    (h : AllocConsistent s) : AllocConsistent (addWaitEdge s pid rid) := by
  obtain ⟨hres, hproc⟩ := h
  refine ⟨?_, ?_⟩
  · intro x' hx'
    obtain ⟨x, hxm, rfl⟩ := List.mem_map.mp hx'
    obtain ⟨hid, hst, hhb⟩ := waitRes_parts pid rid x
    rw [hid, hst, hhb]
    refine ⟨(hres x hxm).1, ?_⟩
    intro h2 hh2
    obtain ⟨p, hpm, hpid, hpheld⟩ := (hres x hxm).2 h2 hh2
    refine ⟨waitProc pid rid p, List.mem_map.mpr ⟨p, hpm, rfl⟩, ?_, ?_⟩
    · rw [(waitProc_parts pid rid p).1]; exact hpid
    · rw [(waitProc_parts pid rid p).2]; exact hpheld
  · intro q' hq'
    obtain ⟨q, hqm, rfl⟩ := List.mem_map.mp hq'
    intro x hxh
    rw [(waitProc_parts pid rid q).2] at hxh
    rw [(waitProc_parts pid rid q).1]
    obtain ⟨r3, hr3m, hr3id, hr3h⟩ := hproc q hqm x hxh
    refine ⟨waitRes pid rid r3, List.mem_map.mpr ⟨r3, hr3m, rfl⟩, ?_, ?_⟩
    · rw [(waitRes_parts pid rid r3).1]; exact hr3id
    · rw [(waitRes_parts pid rid r3).2.2]; exact hr3h

/-- Claim C3: after every operation of the engine, a resource is allocated
exactly when its holder is set, and exactly when the holding process's held
set contains that resource id, assuming the store satisfies the spec's
data-model invariants beforehand. -/
theorem spec_alloc_invariant (s : EngineState) (pid rid nid ty : String) (prio : Priority)
    (hwf : WF s) :
    AllocConsistent (addProcess s nid prio).snd ∧
    AllocConsistent (addResource s nid ty).snd ∧
    AllocConsistent (requestResource s pid rid).snd ∧
    AllocConsistent (releaseResource s pid rid) ∧
    AllocConsistent (detectDeadlock s).snd ∧
    AllocConsistent (removeAll s) ∧
    AllocConsistent (recoverDeadlock s).snd := by
  have hac := allocConsistent_of_WF s hwf
  refine ⟨?_, ?_, ?_, ?_, ?_, ?_, ?_⟩
  · -- addProcess
    by_cases hdup : (findProcess s nid).isSome
    · have heq : (addProcess s nid prio).snd = s := by simp [addProcess, hdup]
      rw [heq]
      exact hac
    · have heq : (addProcess s nid prio).snd
          = appendLog { s with processes := s.processes ++ [⟨nid, prio, [], []⟩] } "info"
              ("Process " ++ nid ++ " added") := by
        simp [addProcess, hdup]
      rw [heq]
      obtain ⟨hres, hproc⟩ := hac
      refine ⟨?_, ?_⟩
      · intro x hx
        refine ⟨(hres x hx).1, ?_⟩
        intro h2 hh2
        obtain ⟨p, hpm, hpid, hpheld⟩ := (hres x hx).2 h2 hh2
        exact ⟨p, List.mem_append.mpr (Or.inl hpm), hpid, hpheld⟩
      · intro p hp x hxh
        rcases List.mem_append.mp hp with h3 | h3
        · exact hproc p h3 x hxh
        · simp at h3
          rw [h3] at hxh
          simp at hxh
  · -- addResource
    by_cases hdup : (findResource s nid).isSome
    · have heq : (addResource s nid ty).snd = s := by simp [addResource, hdup]
      rw [heq]
      exact hac
    · have heq : (addResource s nid ty).snd
          = appendLog { s with resources := s.resources ++ [⟨nid, ty, RStatus.available, none, []⟩] }
              "info" ("Resource " ++ nid ++ " added") := by
        simp [addResource, hdup]
      rw [heq]
      obtain ⟨hres, hproc⟩ := hac
      refine ⟨?_, ?_⟩
      · intro x hx
        rcases List.mem_append.mp hx with h3 | h3
        · exact ⟨(hres x h3).1, (hres x h3).2⟩
        · simp at h3
          rw [h3]
          refine ⟨by simp, ?_⟩
          intro h2 hh2
          exact Option.noConfusion hh2
      · intro p hp x hxh
        obtain ⟨r3, hr3m, hr3id, hr3h⟩ := hproc p hp x hxh
        exact ⟨r3, List.mem_append.mpr (Or.inl hr3m), hr3id, hr3h⟩
  · -- requestResource
    rcases hp : findProcess s pid with _ | p
    · have heq : (requestResource s pid rid).snd = s := by simp [requestResource, hp]
      rw [heq]
      exact hac
    · rcases hr : findResource s rid with _ | r
      · have heq : (requestResource s pid rid).snd = s := by simp [requestResource, hp, hr]
        rw [heq]
        exact hac
      · by_cases h1 : rid ∈ p.held
        · have hps : (requestResource s pid rid).snd.processes = s.processes := by
            simp [requestResource, hp, hr, h1, appendLog]
          have hrs : (requestResource s pid rid).snd.resources = s.resources := by
            simp [requestResource, hp, hr, h1, appendLog]
          exact allocConsistent_congr s _ hps hrs hac
        · by_cases h2 : rid ∈ p.waitingFor
          · have hps : (requestResource s pid rid).snd.processes = s.processes := by
              simp [requestResource, hp, hr, h1, h2, appendLog]
            have hrs : (requestResource s pid rid).snd.resources = s.resources := by
              simp [requestResource, hp, hr, h1, h2, appendLog]
            exact allocConsistent_congr s _ hps hrs hac
          · rcases hb : r.heldBy with _ | holder
            · have hps : (requestResource s pid rid).snd.processes
                  = (grantTo s pid rid).processes := by
                simp [requestResource, hp, hr, h1, h2, hb, appendLog]
              have hrs : (requestResource s pid rid).snd.resources
                  = (grantTo s pid rid).resources := by
                simp [requestResource, hp, hr, h1, h2, hb, appendLog]
              exact allocConsistent_congr (grantTo s pid rid) _ hps hrs
                (grant_allocConsistent s pid rid hwf p hp r hr hb h1)
            · cases hfc : findCycleCore (addWaitEdge s pid rid).processes
                  (addWaitEdge s pid rid).resources with
              | none =>
                have hps : (requestResource s pid rid).snd.processes
                    = (addWaitEdge s pid rid).processes := by
                  simp [requestResource, hp, hr, h1, h2, hb, hfc, appendLog]
                have hrs : (requestResource s pid rid).snd.resources
                    = (addWaitEdge s pid rid).resources := by
                  simp [requestResource, hp, hr, h1, h2, hb, hfc, appendLog]
                exact allocConsistent_congr (addWaitEdge s pid rid) _ hps hrs
                  (addWaitEdge_allocConsistent s pid rid hac)
              | some c =>
                have hps : (requestResource s pid rid).snd.processes = s.processes := by
                  simp [requestResource, hp, hr, h1, h2, hb, hfc, appendLog]
                have hrs : (requestResource s pid rid).snd.resources = s.resources := by
                  simp [requestResource, hp, hr, h1, h2, hb, hfc, appendLog]
                exact allocConsistent_congr s _ hps hrs hac
  · -- releaseResource
    exact allocConsistent_of_WF _ (releaseResource_WF s pid rid hwf)
  · -- detectDeadlock
    cases hfc : findCycleCore s.processes s.resources with
    | some c =>
      have hps : (detectDeadlock s).snd.processes = s.processes := by
        simp [detectDeadlock, hfc, appendLog]
      have hrs : (detectDeadlock s).snd.resources = s.resources := by
        simp [detectDeadlock, hfc, appendLog]
      exact allocConsistent_congr s _ hps hrs hac
    | none =>
      have hps : (detectDeadlock s).snd.processes = s.processes := by
        simp [detectDeadlock, hfc]
      have hrs : (detectDeadlock s).snd.resources = s.resources := by
        simp [detectDeadlock, hfc]
      exact allocConsistent_congr s _ hps hrs hac
  · -- removeAll
    refine ⟨?_, ?_⟩
    · intro x hx
      simp [removeAll, initState] at hx
    · intro p hp
      simp [removeAll, initState] at hp
  · -- recoverDeadlock
    cases hfc : findCycleCore s.processes s.resources with
    | none =>
      have heq : recoverDeadlock s = (RecoverResult.noDeadlock, s) := by
        simp [recoverDeadlock, hfc]
      rw [heq]
      exact hac
    | some c =>
      cases hpv : pickVictim (c.filterMap (fun n =>
          match n with
          | GNode.P pid2 => findProcess s pid2
          | GNode.R _ => none)) with
      | none =>
        have heq : recoverDeadlock s = (RecoverResult.invalidState, s) := by
          simp [recoverDeadlock, hfc, hpv]
        rw [heq]
        exact hac
      | some pv =>
        have hpvmem := pickVictim_mem _ pv hpv
        obtain ⟨n, _, hng⟩ := List.mem_filterMap.mp hpvmem
        cases n with
        | R y => simp at hng
        | P pid0 =>
          have hng' : findProcess s pid0 = some pv := hng
          have hid : pv.id = pid0 := by simpa using List.find?_some hng'
          have hfp' : findProcess s pv.id = some pv := by rw [hid]; exact hng'
          have hwf1 : WF (pv.held.foldl (fun st x => releaseResource st pv.id x) s) :=
            fold_release_WF pv.id pv.held s hwf
          obtain ⟨pv2, hfp2, hheld2⟩ :=
            fold_release_heldEmpty pv.id pv.held s pv hwf hfp' rfl rfl
          have hrmv := removeVictim_allocConsistent _ pv.id hwf1 pv2 hfp2 hheld2
          have hps : (recoverDeadlock s).snd.processes
              = (removeVictim (pv.held.foldl (fun st x => releaseResource st pv.id x) s)
                  pv.id).processes := by
            simp [recoverDeadlock, hfc, hpv, appendLog]
          have hrs : (recoverDeadlock s).snd.resources
              = (removeVictim (pv.held.foldl (fun st x => releaseResource st pv.id x) s)
                  pv.id).resources := by
            simp [recoverDeadlock, hfc, hpv, appendLog]
          exact allocConsistent_congr _ _ hps hrs hrmv

/-- Witness for claim C3 on a concrete deadlocked store. -/
theorem spec_alloc_invariant_witness :
    AllocConsistent (addProcess wsDead "P3" Priority.low).snd ∧
    AllocConsistent (addResource wsDead "P3" "file").snd ∧
    AllocConsistent (requestResource wsDead "P1" "R1").snd ∧
    AllocConsistent (releaseResource wsDead "P1" "R1") ∧
    AllocConsistent (detectDeadlock wsDead).snd ∧
    AllocConsistent (removeAll wsDead) ∧
    AllocConsistent (recoverDeadlock wsDead).snd :=
  spec_alloc_invariant wsDead "P1" "R1" "P3" "file" Priority.low (by constructor <;> decide)
